import Mathlib

/-!
Shallow embedding of the `lox-rust` interpreter front end
(`src/lexer/types.rs`, `src/lexer/token.rs`, `src/lexer/lexer.rs`,
`src/ast/expr.rs`, `src/ast/syntax_tree.rs`, `src/ast/printer.rs`,
`src/ast/interpreter.rs`) and proofs about it.

Modelling conventions:
* Rust `f32` values are modelled by `Lox.F32`: an exact rational for finite
  values plus `nan` / `inf` / `neginf`.  Finite arithmetic is exact (the
  rounding of IEEE-754 operations is not modelled); the special values and
  the saturating `as usize` cast follow the IEEE / Rust rules, which is what
  the properties below depend on.
* Rust `u32` arithmetic (`res * 10 + digit` in `parse_integer`) is modelled
  with an explicit `% 2 ^ 32` at each step (release-mode wrap-around
  semantics).
* The lexer's mutable `self` (remaining characters, `line`, `character`) is
  threaded explicitly; `consume` bumps `line` and resets `character` on a
  newline and leaves them unchanged otherwise, exactly as in the source.
  Recursive scanning functions recurse structurally on the remaining
  character list; `next_token` (which restarts itself after a `//` comment)
  and `get_tokens` take an explicit fuel which the entry points instantiate
  with `length + 1`, an upper bound on the number of possible iterations
  (every iteration consumes at least one character).
* The parser's mutually recursive descent takes an explicit fuel; the entry
  point `SyntaxTree.expression` supplies a fuel that dominates the possible
  recursion depth (each nesting level consumes a token).
* Error payloads that are only human-readable messages (`anyhow::Error`,
  `ParserError::message`) are not modelled; `ParserError` keeps its
  `line`/`character` fields.  A Rust panic (abnormal termination) is
  modelled by the distinguished evaluation outcome `EvalRes.aborted`,
  which is different from a reportable error `EvalRes.err`.
-/

namespace Lox

/-- Exact model of an `f32` value: a finite rational or one of the IEEE
special values. Finite arithmetic is exact; specials propagate as in
IEEE-754. -/
inductive F32 where
  | finite (q : ℚ)
  | nan
  | inf
  | neginf
  deriving DecidableEq, Repr

namespace F32

/-- IEEE equality used by Rust's derived `PartialEq` on `f32` fields:
`NaN` is unequal to everything, including itself. -/
def ieeeEq : F32 → F32 → Bool
  | finite a, finite b => a = b
  | inf, inf => true
  | neginf, neginf => true
  | _, _ => false

/-- `f32` addition (`inf + neginf = NaN`, `NaN` propagates). -/
def add : F32 → F32 → F32
  | nan, _ => nan
  | _, nan => nan
  | inf, neginf => nan
  | neginf, inf => nan
  | inf, _ => inf
  | _, inf => inf
  | neginf, _ => neginf
  | _, neginf => neginf
  | finite a, finite b => finite (a + b)

/-- `f32` negation. -/
def neg : F32 → F32
  | nan => nan
  | inf => neginf
  | neginf => inf
  | finite a => finite (-a)

/-- `f32` subtraction. -/
def sub (a b : F32) : F32 := add a (neg b)

/-- `f32` multiplication (`0 * inf = NaN`, signs as in IEEE-754). -/
def mul : F32 → F32 → F32
  | nan, _ => nan
  | _, nan => nan
  | inf, inf => inf
  | inf, neginf => neginf
  | neginf, inf => neginf
  | neginf, neginf => inf
  | inf, finite b => if b = 0 then nan else if 0 < b then inf else neginf
  | finite a, inf => if a = 0 then nan else if 0 < a then inf else neginf
  | neginf, finite b => if b = 0 then nan else if 0 < b then neginf else inf
  | finite a, neginf => if a = 0 then nan else if 0 < a then neginf else inf
  | finite a, finite b => finite (a * b)

/-- `f32` division.  `0/0` is `NaN`, `x/0` is a signed infinity (the sign
of a zero denominator is not representable in the exact model, so the
denominator is treated as `+0`). -/
def div : F32 → F32 → F32
  | nan, _ => nan
  | _, nan => nan
  | inf, inf => nan
  | inf, neginf => nan
  | neginf, inf => nan
  | neginf, neginf => nan
  | inf, finite b => if 0 ≤ b then inf else neginf
  | neginf, finite b => if 0 ≤ b then neginf else inf
  | finite _, inf => finite 0
  | finite _, neginf => finite 0
  | finite a, finite b =>
    if b = 0 then (if a = 0 then nan else if 0 < a then inf else neginf)
    else finite (a / b)

/-- `f32` strict order (`NaN` is incomparable with everything). -/
def flt : F32 → F32 → Bool
  | nan, _ => false
  | _, nan => false
  | neginf, neginf => false
  | neginf, _ => true
  | _, neginf => false
  | inf, inf => false
  | finite _, inf => true
  | inf, finite _ => false
  | finite a, finite b => a < b

/-- `f32` non-strict order (`NaN` is incomparable with everything). -/
def fle : F32 → F32 → Bool
  | nan, _ => false
  | _, nan => false
  | neginf, _ => true
  | _, neginf => false
  | _, inf => true
  | inf, finite _ => false
  | finite a, finite b => a ≤ b

/-- Rust's `usize::MAX` (64-bit target). -/
def usizeMax : Nat := 2 ^ 64 - 1

/-- Rust's saturating `as usize` cast from `f32`: `NaN` and negative
values go to `0`, `inf` and huge values saturate to `usize::MAX`,
finite values truncate toward zero. -/
def toUsize : F32 → Nat
  | nan => 0
  | neginf => 0
  | inf => usizeMax
  | finite q => if q < 0 then 0 else min (q.num.toNat / q.den) usizeMax

/-- Negative `f32` values (`x < 0`). -/
def isNeg : F32 → Bool
  | finite q => q < 0
  | neginf => true
  | _ => false

end F32

/-- Decimal digits of the fractional part `n / d` (with `n < d`), emitted
until the remainder vanishes; `fuel` bounds the number of digits.  All
values produced by the interpreter pipeline that reach `toString` in a
proof below have terminating expansions well within the fuel. -/
def fracDigits : Nat → Nat → Nat → List Char
  | 0, _, _ => []
  | _ + 1, 0, _ => []
  | fuel + 1, n, d =>
    let n10 := n * 10
    Char.ofNat (48 + n10 / d) :: fracDigits fuel (n10 % d) d

/-- Rust's `Display` for `f32` (`num.to_string()`): integer-valued floats
print without a decimal point, others with their (shortest) decimal
expansion; specials print as `NaN` / `inf` / `-inf`. -/
def F32.toString : F32 → String
  | F32.nan => "NaN"
  | F32.inf => "inf"
  | F32.neginf => "-inf"
  | F32.finite q =>
    let sign := if q.num < 0 then "-" else ""
    let n := q.num.natAbs
    let ip := n / q.den
    let rem := n % q.den
    if rem = 0 then sign ++ Nat.repr ip
    else sign ++ Nat.repr ip ++ "." ++ String.mk (fracDigits 64 rem q.den)

/-- Alias for the builtin string type, usable inside namespaces that
declare their own `String` constructor. -/
abbrev Str := String

/-- `TokenType` from `src/lexer/types.rs`. -/
inductive TokenType where
  | EOF
  | Unknown
  | LeftParen
  | RightParen
  | LeftBrace
  | RightBrace
  | Star
  | Dot
  | Comma
  | Semicolon
  | Plus
  | Minus
  | Slash
  | Bang
  | Equal
  | EqualEqual
  | BangEqual
  | Greater
  | GreaterEqual
  | Less
  | LessEqual
  | String (s : String)
  | Identifier (s : String)
  | UnterminatedString (s : String)
  | Number (n : F32)
  | AND
  | CLASS
  | ELSE
  | FALSE
  | FOR
  | FUN
  | IF
  | NIL
  | OR
  | PRINT
  | RETURN
  | SUPER
  | THIS
  | TRUE
  | VAR
  | WHILE
  deriving DecidableEq, Repr

namespace TokenType

/-- Rust's derived `PartialEq` on `TokenType`: structural, except that the
`f32` payload of `Number` compares with IEEE equality. -/
def peq : TokenType → TokenType → Bool
  | Number a, Number b => F32.ieeeEq a b
  | a, b => a = b

/-- `TokenType::check_keyword` from `src/lexer/types.rs`. -/
def check_keyword (str : Str) : Option TokenType :=
  if str = "and" then some AND
  else if str = "class" then some CLASS
  else if str = "else" then some ELSE
  else if str = "false" then some FALSE
  else if str = "for" then some FOR
  else if str = "fun" then some FUN
  else if str = "if" then some IF
  else if str = "nil" then some NIL
  else if str = "or" then some OR
  else if str = "print" then some PRINT
  else if str = "return" then some RETURN
  else if str = "super" then some SUPER
  else if str = "this" then some THIS
  else if str = "true" then some TRUE
  else if str = "var" then some VAR
  else if str = "while" then some WHILE
  else none

end TokenType

/-- `Token` from `src/lexer/token.rs`. -/
structure Token where
  token_type : TokenType
  lexeme : String
  line : Nat
  character : Nat
  deriving DecidableEq, Repr

/-- `Token::is_error` from `src/lexer/token.rs`. -/
def Token.is_error (t : Token) : Bool :=
  match t.token_type with
  | TokenType.Unknown => true
  | TokenType.UnterminatedString _ => true
  | _ => false

/-! ### The lexer (`src/lexer/lexer.rs`)

The scanner state is the remaining character list together with the
`line` and `character` counters.  `consume` bumps `line` and resets
`character` to 1 when the consumed character is a newline and otherwise
leaves both unchanged (the source never advances `character`). Only
`skip_whitespace` can consume a newline (strings stop *before* a newline,
comments stop before the newline, and every other token consists of
non-newline characters), so the scanning helpers that cannot meet a
newline do not thread the counters. -/

/-- `Lexer::is_digit`. -/
def is_digit (c : Char) : Bool := '0' ≤ c ∧ c ≤ '9'

/-- `Lexer::is_identifier`. -/
def is_identifier (c : Char) : Bool :=
  ('a' ≤ c ∧ c ≤ 'z') ∨ ('A' ≤ c ∧ c ≤ 'Z') ∨ c = '_'

/-- `Lexer::is_aplhanumeric` (sic). -/
def is_aplhanumeric (c : Char) : Bool := is_digit c ∨ is_identifier c

/-- Whitespace characters skipped between tokens. -/
def isWS (c : Char) : Bool := c = ' ' ∨ c = '\t' ∨ c = '\r' ∨ c = '\n'

/-- `Lexer::skip_whitespace`: consumes whitespace, maintaining the
line/character counters exactly as `consume` does. -/
def skip_whitespace : List Char → Nat → Nat → List Char × Nat × Nat
  | [], ln, col => ([], ln, col)
  | c :: rest, ln, col =>
    if isWS c then
      skip_whitespace rest (if c = '\n' then ln + 1 else ln)
        (if c = '\n' then 1 else col)
    else (c :: rest, ln, col)

/-- `Lexer::parse_identifier`: the maximal alphanumeric run from the
current position (the dispatching first character was already consumed
by `next_token` and is *not* included). -/
def parse_identifier : List Char → String × List Char
  | [] => ("", [])
  | c :: rest =>
    if is_aplhanumeric c then
      let r := parse_identifier rest
      (⟨c :: r.1.data⟩, r.2)
    else ("", c :: rest)

/-- The `u32` modulus. -/
def u32Mod : Nat := 2 ^ 32

/-- The loop of `Lexer::parse_integer`, with accumulator and consumed
count; `res = res * 10 + digit` wraps modulo `2 ^ 32` (u32 arithmetic,
release-mode wrap-around). -/
def parse_integer_aux : List Char → Nat → Nat → Nat × Nat × List Char
  | [], res, consumed => (res, consumed, [])
  | c :: rest, res, consumed =>
    if is_digit c then
      parse_integer_aux rest ((res * 10 + (c.toNat - 48)) % u32Mod) (consumed + 1)
    else (res, consumed, c :: rest)

/-- `Lexer::parse_integer`: returns the accumulated value and the number
of characters consumed. -/
def parse_integer (cs : List Char) : Nat × Nat × List Char :=
  parse_integer_aux cs 0 0

/-- `Lexer::parse_number`.  Note that `match_next('.')` *consumes* the
`.` whenever it is present, even when no digit follows it. -/
def parse_number (cs : List Char) : F32 × List Char :=
  let r := parse_integer cs
  match r.2.2 with
  | '.' :: cs2 =>
    match cs2 with
    | c :: _ =>
      if is_digit c then
        let rf := parse_integer cs2
        (F32.add (F32.finite r.1) (F32.div (F32.finite rf.1) (F32.finite (10 ^ rf.2.1))),
          rf.2.2)
      else (F32.finite r.1, cs2)
    | [] => (F32.finite r.1, cs2)
  | _ => (F32.finite r.1, r.2.2)

/-- The loop of `Lexer::parse_string_token`.  The opening quote was
consumed by `next_token`; `literal` and `lexeme` are the accumulators
(the lexeme starts as `"`).  A terminating newline is recorded in the
lexeme but *not* consumed. -/
def parse_string_aux (ln col : Nat) : List Char → String → String → Token × List Char
  | [], literal, lexeme => (⟨TokenType.UnterminatedString literal, lexeme, ln, col⟩, [])
  | c :: rest, literal, lexeme =>
    let lexeme' := lexeme.push c
    if c = '\n' then
      (⟨TokenType.UnterminatedString literal, lexeme', ln, col⟩, c :: rest)
    else if c = '\"' then
      (⟨TokenType.String literal, lexeme', ln, col⟩, rest)
    else parse_string_aux ln col rest (literal.push c) lexeme'

/-- `Lexer::parse_string_token` (after the opening `"` was consumed). -/
def parse_string_token (cs : List Char) (ln col : Nat) : Token × List Char :=
  parse_string_aux ln col cs "" "\""

/-- The `//` comment loop: consume while the next character is neither a
newline nor the end of input (the newline itself is not consumed). -/
def skip_comment : List Char → List Char
  | [] => []
  | c :: rest => if c = '\n' then c :: rest else skip_comment rest

/-- `Lexer::match_next`: consume the next character iff it matches the
expected one; returns whether it matched and the remaining input. -/
def match_next (expected : Char) : List Char → Bool × List Char
  | [] => (false, [])
  | c :: rest => if c = expected then (true, rest) else (false, c :: rest)

/-- `Lexer::next_token`, with explicit fuel for the self-restart after a
`//` comment.  Each restart has consumed at least one character, so any
fuel exceeding the input length is enough; the fuel-exhausted branch is
unreachable from the entry point `next_token`. -/
def next_token_fueled : Nat → List Char → Nat → Nat → Token × List Char × Nat × Nat
  | 0, cs, ln, col => (⟨TokenType.EOF, "", ln, col⟩, cs, ln, col)
  | fuel + 1, cs0, ln0, col0 =>
    let sw := skip_whitespace cs0 ln0 col0
    let ln := sw.2.1
    let col := sw.2.2
    match sw.1 with
      | [] => (⟨TokenType.EOF, "", ln, col⟩, [], ln, col)
      | ch :: rest =>
        if ch = '(' then (⟨TokenType.LeftParen, "(", ln, col⟩, rest, ln, col)
        else if ch = ')' then (⟨TokenType.RightParen, ")", ln, col⟩, rest, ln, col)
        else if ch = '\x7b' then (⟨TokenType.LeftBrace, "\x7b", ln, col⟩, rest, ln, col)
        else if ch = '\x7d' then (⟨TokenType.RightBrace, "\x7d", ln, col⟩, rest, ln, col)
        else if ch = '*' then (⟨TokenType.Star, "*", ln, col⟩, rest, ln, col)
        else if ch = '.' then (⟨TokenType.Dot, ".", ln, col⟩, rest, ln, col)
        else if ch = ',' then (⟨TokenType.Comma, ",", ln, col⟩, rest, ln, col)
        else if ch = ';' then (⟨TokenType.Semicolon, ";", ln, col⟩, rest, ln, col)
        else if ch = '+' then (⟨TokenType.Plus, "+", ln, col⟩, rest, ln, col)
        else if ch = '-' then (⟨TokenType.Minus, "-", ln, col⟩, rest, ln, col)
        else if ch = '/' then
          if rest.head? = some '/' then
            next_token_fueled fuel (skip_comment rest) ln col
          else (⟨TokenType.Slash, "/", ln, col⟩, rest, ln, col)
        else if ch = '=' then
          if (match_next '=' rest).1 then
            (⟨TokenType.EqualEqual, "==", ln, col⟩, (match_next '=' rest).2, ln, col)
          else (⟨TokenType.Equal, "=", ln, col⟩, (match_next '=' rest).2, ln, col)
        else if ch = '!' then
          if (match_next '=' rest).1 then
            (⟨TokenType.BangEqual, "!=", ln, col⟩, (match_next '=' rest).2, ln, col)
          else (⟨TokenType.Bang, "!", ln, col⟩, (match_next '=' rest).2, ln, col)
        else if ch = '>' then
          if (match_next '=' rest).1 then
            (⟨TokenType.GreaterEqual, ">=", ln, col⟩, (match_next '=' rest).2, ln, col)
          else (⟨TokenType.Greater, ">", ln, col⟩, (match_next '=' rest).2, ln, col)
        else if ch = '<' then
          if (match_next '=' rest).1 then
            (⟨TokenType.LessEqual, "<=", ln, col⟩, (match_next '=' rest).2, ln, col)
          else (⟨TokenType.Less, "<", ln, col⟩, (match_next '=' rest).2, ln, col)
        else if ch = '\"' then
          let r := parse_string_token rest ln col
          (r.1, r.2, ln, col)
        else if is_digit ch then
          -- NB: `ch` itself was consumed by the dispatching `consume()` and
          -- `parse_number` starts at the *next* character, so the first
          -- digit does not contribute to the number.
          let r := parse_number rest
          (⟨TokenType.Number r.1, r.1.toString, ln, col⟩, r.2, ln, col)
        else if is_identifier ch then
          -- Same here: the first identifier character is dropped.
          let r := parse_identifier rest
          match TokenType.check_keyword r.1 with
          | some kw => (⟨kw, r.1, ln, col⟩, r.2, ln, col)
          | none => (⟨TokenType.Identifier r.1, r.1, ln, col⟩, r.2, ln, col)
        else (⟨TokenType.Unknown, ⟨[ch]⟩, ln, col⟩, rest, ln, col)

/-- `Lexer::next_token` (entry point, with sufficient fuel). -/
def next_token (cs : List Char) (ln col : Nat) : Token × List Char × Nat × Nat :=
  next_token_fueled (cs.length + 1) cs ln col

/-- The loop of `Lexer::get_tokens`: collect tokens until (and including)
the `EOF` token; the comparison `token.token_type == EOF` is Rust's
`PartialEq`. Every non-`EOF` iteration consumes at least one character,
so any fuel exceeding the input length is enough. -/
def get_tokens_fueled : Nat → List Char → Nat → Nat → List Token
  | 0, _, _, _ => []
  | fuel + 1, cs, ln, col =>
    let r := next_token cs ln col
    if TokenType.peq r.1.token_type TokenType.EOF then [r.1]
    else r.1 :: get_tokens_fueled fuel r.2.1 r.2.2.1 r.2.2.2

/-- `Lexer::get_tokens` for a lexer freshly created with
`Lexer::new(source)` (`current = 0`, `line = 1`, `character = 1`). -/
def get_tokens (source : String) : List Token :=
  get_tokens_fueled (source.data.length + 1) source.data 1 1

/-! ### The expression tree (`src/ast/expr.rs`) -/

/-- `Expr` from `src/ast/expr.rs`. -/
inductive Expr where
  | Unary (op : Token) (e : Expr)
  | Binary (l : Expr) (op : Token) (r : Expr)
  | Grouping (e : Expr)
  | Literal (t : Token)
  deriving DecidableEq, Repr

/-! ### The printer (`src/ast/printer.rs`)

The visitor indirection (`Expr::accept` dispatching to
`AstPrinter::visit_*_expr`) is inlined into one structural recursion. -/

/-- `AstPrinter::print`. -/
def astPrint : Expr → String
  | Expr.Unary op e => "(" ++ op.lexeme ++ " " ++ astPrint e ++ ")"
  | Expr.Binary l op r =>
    "(" ++ op.lexeme ++ " " ++ astPrint l ++ " " ++ astPrint r ++ ")"
  | Expr.Literal t =>
    match t.token_type with
    | TokenType.String s => s
    | TokenType.Number n => n.toString
    | _ => "not implemented"
  | Expr.Grouping e => "(group " ++ astPrint e ++ ")"

/-! ### The parser (`src/ast/syntax_tree.rs`)

Parser state is the remaining token list (the source keeps a vector and a
cursor; only the suffix from the cursor on is ever inspected).  The
mutually recursive descent takes an explicit fuel; every descent from
`expression` back into itself passes a consumed `(` token, so the fuel
chosen by the entry point `SyntaxTree.expression` dominates any possible
recursion depth and the fuel-exhausted branch (reported as the otherwise
unused error position `(0,0)`) is unreachable from it. -/

/-- `ParserError` from `src/ast/syntax_tree.rs` (the human-readable
`message` field is not modelled). -/
structure ParserError where
  line : Nat
  character : Nat
  deriving DecidableEq, Repr

/-- Parser state: the not-yet-consumed tokens. -/
structure PState where
  tokens : List Token
  deriving DecidableEq, Repr

/-- `SyntaxTree::consume`. -/
def consumeTok (s : PState) : Option Token × PState :=
  match s.tokens with
  | [] => (none, s)
  | t :: ts => (some t, ⟨ts⟩)

/-- `SyntaxTree::matches`: consume the next token iff its type is in the
expected list (membership via Rust's `PartialEq` on `TokenType`). -/
def matchesTok (s : PState) (expected : List TokenType) : Option (Token × PState) :=
  match s.tokens with
  | [] => none
  | t :: ts =>
    if expected.any (fun ty => TokenType.peq ty t.token_type) then some (t, ⟨ts⟩)
    else none

/-- `SyntaxTree::expect`. -/
def expectTok (s : PState) (expected : List TokenType) : Except ParserError PState :=
  match s.tokens with
  | [] => Except.error ⟨0, 0⟩
  | t :: ts =>
    if expected.any (fun ty => TokenType.peq ty t.token_type) then Except.ok ⟨ts⟩
    else Except.error ⟨t.line, t.character⟩

mutual

/-- `SyntaxTree::expression`. -/
def expressionF : Nat → PState → Except ParserError (Expr × PState)
  | 0, _ => Except.error ⟨0, 0⟩
  | fuel + 1, s => equalityF fuel s

/-- `SyntaxTree::equality`. -/
def equalityF : Nat → PState → Except ParserError (Expr × PState)
  | 0, _ => Except.error ⟨0, 0⟩
  | fuel + 1, s =>
    match comparisionF fuel s with
    | Except.error e => Except.error e
    | Except.ok (expr, s) => equalityLoopF fuel expr s

/-- The `while` loop of `SyntaxTree::equality`. -/
def equalityLoopF : Nat → Expr → PState → Except ParserError (Expr × PState)
  | 0, _, _ => Except.error ⟨0, 0⟩
  | fuel + 1, expr, s =>
    match matchesTok s [TokenType.EqualEqual, TokenType.BangEqual] with
    | none => Except.ok (expr, s)
    | some (tok, s) =>
      match comparisionF fuel s with
      | Except.error e => Except.error e
      | Except.ok (right, s) => equalityLoopF fuel (Expr.Binary expr tok right) s

/-- `SyntaxTree::comparision` (sic). -/
def comparisionF : Nat → PState → Except ParserError (Expr × PState)
  | 0, _ => Except.error ⟨0, 0⟩
  | fuel + 1, s =>
    match termF fuel s with
    | Except.error e => Except.error e
    | Except.ok (expr, s) => comparisionLoopF fuel expr s

/-- The `while` loop of `SyntaxTree::comparision`. -/
def comparisionLoopF : Nat → Expr → PState → Except ParserError (Expr × PState)
  | 0, _, _ => Except.error ⟨0, 0⟩
  | fuel + 1, expr, s =>
    match matchesTok s [TokenType.Greater, TokenType.GreaterEqual,
        TokenType.Less, TokenType.LessEqual] with
    | none => Except.ok (expr, s)
    | some (tok, s) =>
      match termF fuel s with
      | Except.error e => Except.error e
      | Except.ok (right, s) => comparisionLoopF fuel (Expr.Binary expr tok right) s

/-- `SyntaxTree::term`. -/
def termF : Nat → PState → Except ParserError (Expr × PState)
  | 0, _ => Except.error ⟨0, 0⟩
  | fuel + 1, s =>
    match factorF fuel s with
    | Except.error e => Except.error e
    | Except.ok (expr, s) => termLoopF fuel expr s

/-- The `while` loop of `SyntaxTree::term`. -/
def termLoopF : Nat → Expr → PState → Except ParserError (Expr × PState)
  | 0, _, _ => Except.error ⟨0, 0⟩
  | fuel + 1, expr, s =>
    match matchesTok s [TokenType.Plus, TokenType.Minus] with
    | none => Except.ok (expr, s)
    | some (tok, s) =>
      match factorF fuel s with
      | Except.error e => Except.error e
      | Except.ok (right, s) => termLoopF fuel (Expr.Binary expr tok right) s

/-- `SyntaxTree::factor`. -/
def factorF : Nat → PState → Except ParserError (Expr × PState)
  | 0, _ => Except.error ⟨0, 0⟩
  | fuel + 1, s =>
    match unaryF fuel s with
    | Except.error e => Except.error e
    | Except.ok (expr, s) => factorLoopF fuel expr s

/-- The `while` loop of `SyntaxTree::factor`. -/
def factorLoopF : Nat → Expr → PState → Except ParserError (Expr × PState)
  | 0, _, _ => Except.error ⟨0, 0⟩
  | fuel + 1, expr, s =>
    match matchesTok s [TokenType.Star, TokenType.Slash] with
    | none => Except.ok (expr, s)
    | some (tok, s) =>
      match unaryF fuel s with
      | Except.error e => Except.error e
      | Except.ok (right, s) => factorLoopF fuel (Expr.Binary expr tok right) s

/-- `SyntaxTree::unary`. -/
def unaryF : Nat → PState → Except ParserError (Expr × PState)
  | 0, _ => Except.error ⟨0, 0⟩
  | fuel + 1, s =>
    match matchesTok s [TokenType.Bang, TokenType.Minus] with
    | none => primaryF fuel s
    | some (tok, s) =>
      match unaryF fuel s with
      | Except.error e => Except.error e
      | Except.ok (expr, s) => Except.ok (Expr.Unary tok expr, s)

/-- `SyntaxTree::primary`. -/
def primaryF : Nat → PState → Except ParserError (Expr × PState)
  | 0, _ => Except.error ⟨0, 0⟩
  | fuel + 1, s =>
    match consumeTok s with
    | (none, _) => Except.error ⟨0, 0⟩
    | (some token, s) =>
      match token.token_type with
      | TokenType.String _ => Except.ok (Expr.Literal token, s)
      | TokenType.Number _ => Except.ok (Expr.Literal token, s)
      | TokenType.Identifier _ => Except.ok (Expr.Literal token, s)
      | TokenType.TRUE => Except.ok (Expr.Literal token, s)
      | TokenType.FALSE => Except.ok (Expr.Literal token, s)
      | TokenType.NIL => Except.ok (Expr.Literal token, s)
      | TokenType.LeftParen =>
        match expressionF fuel s with
        | Except.error e => Except.error e
        | Except.ok (expr, s) =>
          match expectTok s [TokenType.RightParen] with
          | Except.error e => Except.error e
          | Except.ok s => Except.ok (Expr.Grouping expr, s)
      | _ => Except.error ⟨token.line, token.character⟩

end

/-- Fuel that dominates the recursion depth of the descent on a given
token list: every cycle back to `expressionF` consumes a token. -/
def parserFuel (tokens : List Token) : Nat := 8 * (tokens.length + 2)

/-- `SyntaxTree::expression` on a freshly created parser
(`SyntaxTree::new(tokens)`, cursor 0). -/
def SyntaxTree.expression (tokens : List Token) : Except ParserError (Expr × PState) :=
  expressionF (parserFuel tokens) ⟨tokens⟩

/-- The parsed expression (discarding the final parser state). -/
def parseExpr (tokens : List Token) : Except ParserError Expr :=
  match SyntaxTree.expression tokens with
  | Except.error e => Except.error e
  | Except.ok (e, _) => Except.ok e

deriving instance DecidableEq for Except

/-! ### The interpreter (`src/ast/interpreter.rs`) -/

/-- Runtime `Value` from `src/ast/interpreter.rs`. -/
inductive Value where
  | Number (n : F32)
  | String (s : Str)
  | Boolean (b : Bool)
  | Nil
  deriving DecidableEq, Repr

/-- Rust's derived `PartialEq` on `Value`: structural, except that
`Number` payloads compare with IEEE `f32` equality (`NaN != NaN`). -/
def valueEq : Value → Value → Bool
  | Value.Number a, Value.Number b => F32.ieeeEq a b
  | Value.String a, Value.String b => a = b
  | Value.Boolean a, Value.Boolean b => a = b
  | Value.Nil, Value.Nil => true
  | _, _ => false

/-- Outcome of evaluating an expression: a value, a reportable runtime
error (`Err(anyhow::Error)`; the message is not modelled), or a Rust
panic (abnormal termination), which is *not* a reportable error. -/
inductive EvalRes where
  | ok (v : Value)
  | err
  | aborted
  deriving DecidableEq, Repr

/-- `str::repeat`. -/
def strRepeat (s : String) : Nat → String
  | 0 => ""
  | n + 1 => s ++ strRepeat s n

/-- `Interpreter::visit_literal_expr`.  Note the catch-all arm is a
`panic!`, not an `Err`. -/
def visit_literal_expr (t : Token) : EvalRes :=
  match t.token_type with
  | TokenType.String s => EvalRes.ok (Value.String s)
  | TokenType.Number n => EvalRes.ok (Value.Number n)
  | TokenType.TRUE => EvalRes.ok (Value.Boolean true)
  | TokenType.FALSE => EvalRes.ok (Value.Boolean false)
  | TokenType.NIL => EvalRes.ok (Value.Nil)
  | _ => EvalRes.aborted

/-- The dispatch of `Interpreter::visit_binary_expr` after both operands
have been evaluated. -/
def binaryOp (op : Token) (left right : Value) : EvalRes :=
  match op.token_type with
  | TokenType.Plus =>
    match left, right with
    | Value.Number a, Value.Number b => EvalRes.ok (Value.Number (F32.add a b))
    | Value.String a, Value.String b => EvalRes.ok (Value.String (a ++ b))
    | _, _ => EvalRes.err
  | TokenType.Minus =>
    match left, right with
    | Value.Number a, Value.Number b => EvalRes.ok (Value.Number (F32.sub a b))
    | _, _ => EvalRes.err
  | TokenType.Star =>
    match left, right with
    | Value.Number a, Value.Number b => EvalRes.ok (Value.Number (F32.mul a b))
    | Value.String s, Value.Number n =>
      EvalRes.ok (Value.String (strRepeat s (F32.toUsize n)))
    | _, _ => EvalRes.err
  | TokenType.Slash =>
    match left, right with
    | Value.Number a, Value.Number b => EvalRes.ok (Value.Number (F32.div a b))
    | _, _ => EvalRes.err
  | TokenType.Greater =>
    match left, right with
    | Value.Number a, Value.Number b => EvalRes.ok (Value.Boolean (F32.flt b a))
    | Value.String a, Value.String b => EvalRes.ok (Value.Boolean (decide (b < a)))
    | _, _ => EvalRes.err
  | TokenType.GreaterEqual =>
    match left, right with
    | Value.Number a, Value.Number b => EvalRes.ok (Value.Boolean (F32.fle b a))
    | Value.String a, Value.String b => EvalRes.ok (Value.Boolean (decide (b ≤ a)))
    | _, _ => EvalRes.err
  | TokenType.Less =>
    match left, right with
    | Value.Number a, Value.Number b => EvalRes.ok (Value.Boolean (F32.flt a b))
    | Value.String a, Value.String b => EvalRes.ok (Value.Boolean (decide (a < b)))
    | _, _ => EvalRes.err
  | TokenType.LessEqual =>
    match left, right with
    | Value.Number a, Value.Number b => EvalRes.ok (Value.Boolean (F32.fle a b))
    | Value.String a, Value.String b => EvalRes.ok (Value.Boolean (decide (a ≤ b)))
    | _, _ => EvalRes.err
  | TokenType.EqualEqual => EvalRes.ok (Value.Boolean (valueEq left right))
  | TokenType.BangEqual => EvalRes.ok (Value.Boolean (! valueEq left right))
  | _ => EvalRes.aborted

/-- The dispatch of `Interpreter::visit_unary_expr` after the operand has
been evaluated (`expect_number` / `expect_boolean` yield `Err` on a
mismatch; an unexpected operator is a panic). -/
def unaryOp (op : Token) (v : Value) : EvalRes :=
  match op.token_type with
  | TokenType.Minus =>
    match v with
    | Value.Number n => EvalRes.ok (Value.Number (F32.neg n))
    | _ => EvalRes.err
  | TokenType.Bang =>
    match v with
    | Value.Boolean b => EvalRes.ok (Value.Boolean (! b))
    | _ => EvalRes.err
  | _ => EvalRes.aborted

/-- `Expr::accept(&Interpreter)`: the visitor indirection inlined.
Binary operands are evaluated left to right; errors and panics
propagate (`?` / unwinding). -/
def eval : Expr → EvalRes
  | Expr.Literal t => visit_literal_expr t
  | Expr.Grouping e => eval e
  | Expr.Unary op e =>
    match eval e with
    | EvalRes.ok v => unaryOp op v
    | r => r
  | Expr.Binary l op r =>
    match eval l with
    | EvalRes.ok vl =>
      match eval r with
      | EvalRes.ok vr => binaryOp op vl vr
      | r => r
    | r => r

/-! ### Specification vocabulary -/

/-- A character run the scanner may skip between two tokens: whitespace
characters and `//` comments (a comment body contains no newline; the
terminating newline, when present, is consumed as whitespace). -/
inductive Skipped : List Char → Prop
  | nil : Skipped []
  | ws {c : Char} {l : List Char} : isWS c = true → Skipped l → Skipped (c :: l)
  | comment {body l : List Char} : (∀ c ∈ body, c ≠ '\n') → Skipped l →
      Skipped ('/' :: '/' :: body ++ l)

/-- `Covers source tokens`: the source text decomposes into the tokens'
lexemes in order, interleaved with skipped whitespace/comment runs — the
reconstruction property of the specification. -/
inductive Covers : List Char → List Token → Prop
  | nil : Covers [] []
  | cons {w rest : List Char} {t : Token} {ts : List Token} :
      Skipped w → Covers rest ts → Covers (w ++ t.lexeme.data ++ rest) (t :: ts)

/-- Tokens whose lexeme is exactly the character run consumed for them:
everything except the number/identifier/keyword families (whose first
character is consumed by the dispatcher but missing from the lexeme, and
whose lexeme for numbers is the float's canonical printing) and an
`UnterminatedString` cut off by a newline (whose lexeme records the
*unconsumed* newline). -/
def goodTok (t : Token) : Bool :=
  match t.token_type with
  | TokenType.Number _ => false
  | TokenType.Identifier _ => false
  | TokenType.AND => false
  | TokenType.CLASS => false
  | TokenType.ELSE => false
  | TokenType.FALSE => false
  | TokenType.FOR => false
  | TokenType.FUN => false
  | TokenType.IF => false
  | TokenType.NIL => false
  | TokenType.OR => false
  | TokenType.PRINT => false
  | TokenType.RETURN => false
  | TokenType.SUPER => false
  | TokenType.THIS => false
  | TokenType.TRUE => false
  | TokenType.VAR => false
  | TokenType.WHILE => false
  | TokenType.UnterminatedString _ => decide ('\n' ∉ t.lexeme.data)
  | _ => true

/-- No token embedded in the tree (literal token or operator) is
error-bearing (`Unknown` / `UnterminatedString`). -/
def treeErrorFree : Expr → Bool
  | Expr.Literal t => ! t.is_error
  | Expr.Unary op e => ! op.is_error && treeErrorFree e
  | Expr.Binary l op r => ! op.is_error && treeErrorFree l && treeErrorFree r
  | Expr.Grouping e => treeErrorFree e

/-- The mathematical value of a decimal digit string. -/
def digitsVal (ds : List Char) : Nat :=
  ds.foldl (fun a c => a * 10 + (c.toNat - 48)) 0

/-- The specification's table for the binary `+` operator (§4.3):
numeric sum on two `Number`s, concatenation on two `String`s, a runtime
error on every other combination of variants. -/
def plusSpec : Value → Value → EvalRes
  | Value.Number a, Value.Number b => EvalRes.ok (Value.Number (F32.add a b))
  | Value.String a, Value.String b => EvalRes.ok (Value.String (a ++ b))
  | _, _ => EvalRes.err

/-- Two runtime values of the same variant. -/
def sameVariant : Value → Value → Bool
  | Value.Number _, Value.Number _ => true
  | Value.String _, Value.String _ => true
  | Value.Boolean _, Value.Boolean _ => true
  | Value.Nil, Value.Nil => true
  | _, _ => false

end Lox

namespace Lox

/-! ## Claim C2 — evaluating a `Literal` whose token is an `Identifier` -/

/-- C2 (counterexample): evaluating `Literal(Identifier "x")` does *not*
yield a reportable runtime error (`Err`); it aborts abnormally (the
source arm is a `panic!`). -/
theorem C2_identifier_literal_cex :
    eval (Expr.Literal ⟨TokenType.Identifier "x", "x", 1, 1⟩) ≠ EvalRes.err
    ∧ eval (Expr.Literal ⟨TokenType.Identifier "x", "x", 1, 1⟩) = EvalRes.aborted := by
  exact ⟨by decide, by decide⟩

/-- C2 (amended): for every token `t` with `t.token_type = Identifier _`,
evaluating `Literal(t)` terminates abnormally (Rust `panic!`), which is
not a reportable `Err`. -/
theorem C2_identifier_literal_aborts (t : Token) (name : Str)
    (h : t.token_type = TokenType.Identifier name) :
    eval (Expr.Literal t) = EvalRes.aborted := by
  unfold eval visit_literal_expr
  rw [h]

/-- C2 witness. -/
theorem C2_identifier_literal_aborts_witness :
    eval (Expr.Literal ⟨TokenType.Identifier "y", "y", 1, 1⟩) = EvalRes.aborted :=
  C2_identifier_literal_aborts ⟨TokenType.Identifier "y", "y", 1, 1⟩ "y" rfl

/-! ## Claim C5 — dispatch of the binary `+` operator -/

/-- C5: once both operands of a `+` have evaluated to values, the result
is exactly the specification's table `plusSpec`: the numeric sum on two
`Number`s, the concatenation on two `String`s, and a reportable runtime
error on every other combination of variants. -/
theorem C5_plus_dispatch (e1 e2 : Expr) (op : Token) (v1 v2 : Value)
    (h1 : eval e1 = EvalRes.ok v1) (h2 : eval e2 = EvalRes.ok v2)
    (hop : op.token_type = TokenType.Plus) :
    eval (Expr.Binary e1 op e2) = plusSpec v1 v2 := by
  unfold eval
  rw [h1, h2]
  unfold binaryOp plusSpec
  rw [hop]

/-- C5 witness: `"a" + "b"` evaluates to `"ab"`, via
`C5_plus_dispatch`. -/
theorem C5_plus_dispatch_witness :
    eval (Expr.Binary
        (Expr.Literal ⟨TokenType.String "a", "\"a\"", 1, 1⟩)
        ⟨TokenType.Plus, "+", 1, 1⟩
        (Expr.Literal ⟨TokenType.String "b", "\"b\"", 1, 1⟩)) =
      EvalRes.ok (Value.String "ab") := by
  have h := C5_plus_dispatch
    (Expr.Literal ⟨TokenType.String "a", "\"a\"", 1, 1⟩)
    (Expr.Literal ⟨TokenType.String "b", "\"b\"", 1, 1⟩)
    ⟨TokenType.Plus, "+", 1, 1⟩
    (Value.String "a") (Value.String "b") rfl rfl rfl
  exact h.trans (by decide)

/-! ## Claim C9 — `String * Number` with a negative or NaN multiplier -/

/-- C9: with a `String` left operand and a `Number` right operand that is
negative or NaN, `*` returns `Ok(String(""))` — the `as usize` cast
saturates to 0 — and not a runtime error. -/
theorem C9_string_times_nonpos (e1 e2 : Expr) (op : Token) (s : Str) (n : F32)
    (h1 : eval e1 = EvalRes.ok (Value.String s))
    (h2 : eval e2 = EvalRes.ok (Value.Number n))
    (hop : op.token_type = TokenType.Star)
    (hn : F32.isNeg n = true ∨ n = F32.nan) :
    eval (Expr.Binary e1 op e2) = EvalRes.ok (Value.String "") := by
  have hz : F32.toUsize n = 0 := by
    rcases hn with h | h
    case inr => subst h; rfl
    case inl =>
      cases n with
      | finite q =>
        have hq : q < 0 := by simpa [F32.isNeg] using h
        simp [F32.toUsize, hq]
      | nan => rfl
      | inf => exact absurd h (by decide)
      | neginf => rfl
  unfold eval
  rw [h1, h2]
  unfold binaryOp
  rw [hop]
  show EvalRes.ok (Value.String (strRepeat s (F32.toUsize n))) =
    EvalRes.ok (Value.String "")
  rw [hz]
  rfl

/-- C9 witness: `"ab" * (-2)` evaluates to `""`, via
`C9_string_times_nonpos`. -/
theorem C9_string_times_nonpos_witness :
    eval (Expr.Binary
        (Expr.Literal ⟨TokenType.String "ab", "\"ab\"", 1, 1⟩)
        ⟨TokenType.Star, "*", 1, 1⟩
        (Expr.Literal ⟨TokenType.Number (F32.finite (-2)), "-2", 1, 1⟩)) =
      EvalRes.ok (Value.String "") :=
  C9_string_times_nonpos
    (Expr.Literal ⟨TokenType.String "ab", "\"ab\"", 1, 1⟩)
    (Expr.Literal ⟨TokenType.Number (F32.finite (-2)), "-2", 1, 1⟩)
    ⟨TokenType.Star, "*", 1, 1⟩ "ab" (F32.finite (-2)) rfl rfl rfl
    (Or.inl (by decide))

/-! ## Claim C7 — left associativity; the repository's own test case -/

/-- C7: evaluating the code at the claim's example input.  The claim (and
the repository's own test `Left Associativity: Equality`) expects
`12 == 34 == 56` to print as `(== (== 12 34) 56)`; the scanner drops the
first character of every number, so the code actually produces
`(== (== 2 4) 6)` (still a left-leaning tree, but not the claimed one). -/
theorem C7_left_assoc_failing_input :
    (parseExpr (get_tokens "12 == 34 == 56")).map astPrint =
      Except.ok "(== (== 2 4) 6)"
    ∧ (parseExpr (get_tokens "12 == 34 == 56")).map astPrint ≠
      Except.ok "(== (== 12 34) 56)" := by
  exact ⟨by decide, by decide⟩

/-! ## Claim C1 — lexeme/source reconstruction: counterexample -/

/-- A skipped run is empty or starts with a whitespace character or a
`/` (the start of a comment). -/
theorem Skipped.head_cases {w : List Char} (h : Skipped w) :
    w = [] ∨ ∃ c l, w = c :: l ∧ (isWS c = true ∨ c = '/') := by
  cases h with
  | nil => exact Or.inl rfl
  | ws hw _ => exact Or.inr ⟨_, _, rfl, Or.inl hw⟩
  | comment _ _ => exact Or.inr ⟨'/', _, rfl, Or.inr rfl⟩

/-- Inversion for `Covers` at a nonempty token list. -/
theorem Covers.cons_inv {cs : List Char} {t : Token} {ts : List Token}
    (h : Covers cs (t :: ts)) :
    ∃ w rest, Skipped w ∧ Covers rest ts ∧ cs = w ++ t.lexeme.data ++ rest := by
  cases h with
  | cons hsk hcov => exact ⟨_, _, hsk, hcov, rfl⟩

/-- C1 (counterexample): scanning `"12"` yields a `Number` token whose
lexeme is `"2"` (the dispatcher consumed the first digit and the lexeme
is the float's printing), so the concatenated lexemes plus skipped
whitespace/comments cannot reconstruct the source — no decomposition of
`"12"` into skipped runs and the lexemes exists. -/
theorem C1_reconstruction_cex :
    get_tokens "12" =
      [⟨TokenType.Number (F32.finite 2), "2", 1, 1⟩, ⟨TokenType.EOF, "", 1, 1⟩]
    ∧ ¬ Covers ("12".data)
        [⟨TokenType.Number (F32.finite 2), "2", 1, 1⟩, ⟨TokenType.EOF, "", 1, 1⟩] := by
  refine ⟨by decide, ?_⟩
  intro h
  obtain ⟨w, rest, hsk, -, heq⟩ := Covers.cons_inv h
  have hdata : ("12".data : List Char) = ['1', '2'] := rfl
  rw [hdata] at heq
  rcases Skipped.head_cases hsk with hw | ⟨c, l, rfl, hc⟩
  · subst hw
    simp only [List.nil_append, List.cons_append, List.cons.injEq] at heq
    exact absurd heq.1 (by decide)
  · simp only [List.cons_append, List.cons.injEq] at heq
    rcases hc with hws | rfl
    · rw [← heq.1] at hws
      exact absurd hws (by decide)
    · exact absurd heq.1 (by decide)

/-! ## Claim C3 — a digit run followed by a trailing `.`: counterexample -/

/-- C3 (counterexample): scanning `"12."` does *not* leave the `.` in
the stream: `match_next('.')` consumes it unconditionally, so the scan
is `[Number, EOF]` with no `Dot` token anywhere (and, the dispatcher
having dropped the first digit, the number's value is 2, not 12). -/
theorem C3_trailing_dot_cex :
    get_tokens "12." =
      [⟨TokenType.Number (F32.finite 2), "2", 1, 1⟩, ⟨TokenType.EOF, "", 1, 1⟩]
    ∧ (get_tokens "12.").all
        (fun t => decide (t.token_type ≠ TokenType.Dot)) = true := by
  exact ⟨by decide, by decide⟩

/-! ## Claim C4 — `parse(scan(print(T)))`: counterexample -/

/-- C4 (counterexample): the printer emits *prefix* notation, which the
infix parser cannot re-parse.  For the well-typed tree
`Binary(Literal 1, +, Literal 2)` (whose literals contain no whitespace
or parentheses) the printed form is `"(+ 1 2)"` and re-parsing it fails
with a parser error at the `+`, so `parse(scan(print(T))) ≢ T`. -/
theorem C4_roundtrip_cex :
    parseExpr (get_tokens (astPrint (Expr.Binary
        (Expr.Literal ⟨TokenType.Number (F32.finite 1), "1", 1, 1⟩)
        ⟨TokenType.Plus, "+", 1, 1⟩
        (Expr.Literal ⟨TokenType.Number (F32.finite 2), "2", 1, 1⟩)))) =
      Except.error ⟨1, 1⟩ := by
  decide

/-! ## Claim C6 — `==` / `!=` on runtime values: counterexample -/

/-- C6 (counterexample): `0 / 0` evaluates to `Number(NaN)`; comparing
that value with `==` against the *structurally identical* value yields
`Boolean(false)`, so same-variant comparison is not structural equality
(IEEE `f32` equality makes `NaN != NaN`). -/
theorem C6_nan_eq_cex :
    eval (Expr.Binary
        (Expr.Literal ⟨TokenType.Number (F32.finite 0), "0", 1, 1⟩)
        ⟨TokenType.Slash, "/", 1, 1⟩
        (Expr.Literal ⟨TokenType.Number (F32.finite 0), "0", 1, 1⟩)) =
      EvalRes.ok (Value.Number F32.nan)
    ∧ eval (Expr.Binary
        (Expr.Binary
          (Expr.Literal ⟨TokenType.Number (F32.finite 0), "0", 1, 1⟩)
          ⟨TokenType.Slash, "/", 1, 1⟩
          (Expr.Literal ⟨TokenType.Number (F32.finite 0), "0", 1, 1⟩))
        ⟨TokenType.EqualEqual, "==", 1, 1⟩
        (Expr.Binary
          (Expr.Literal ⟨TokenType.Number (F32.finite 0), "0", 1, 1⟩)
          ⟨TokenType.Slash, "/", 1, 1⟩
          (Expr.Literal ⟨TokenType.Number (F32.finite 0), "0", 1, 1⟩))) =
      EvalRes.ok (Value.Boolean false) := by
  exact ⟨by decide, by decide⟩

/-! ## Claim C10 — wrap-around accumulation of digit runs: counterexample -/

/-- C10 (counterexample): for the digit run `4294967296` (value `2^32`),
the stored value is 294967296 — the accumulation of the run *without its
first digit* (consumed and discarded by the dispatcher) — and not the
claimed full-run accumulation modulo `2^32` (which is 0). -/
theorem C10_wrap_cex :
    get_tokens "4294967296" =
      [⟨TokenType.Number (F32.finite 294967296), "294967296", 1, 1⟩,
        ⟨TokenType.EOF, "", 1, 1⟩]
    ∧ F32.finite ((digitsVal "4294967296".data % u32Mod : Nat) : ℚ) ≠
        F32.finite 294967296 := by
  exact ⟨by decide, by decide⟩

/-! ### Scanning a number: supporting lemmas -/

/-- The fold of `parse_integer` modulo `u32Mod` only depends on the
accumulator modulo `u32Mod`. -/
theorem foldl_digits_mod_congr (ds : List Char) :
    ∀ x y : Nat, x % u32Mod = y % u32Mod →
      (ds.foldl (fun a c => a * 10 + (c.toNat - 48)) x) % u32Mod =
        (ds.foldl (fun a c => a * 10 + (c.toNat - 48)) y) % u32Mod := by
  induction ds with
  | nil => intro x y h; simpa using h
  | cons d ds ih =>
    intro x y h
    simp only [List.foldl_cons]
    apply ih
    unfold u32Mod at *
    omega

/-- `parse_integer_aux` on a digit run followed by a non-digit boundary:
it consumes exactly the digits, accumulating with `u32` wrap-around. -/
theorem parse_integer_aux_spec (ds : List Char) :
    ∀ (rest : List Char) (res con : Nat), res < u32Mod →
      (∀ c ∈ ds, is_digit c = true) →
      (∀ c, rest.head? = some c → is_digit c = false) →
      parse_integer_aux (ds ++ rest) res con =
        ((ds.foldl (fun a c => a * 10 + (c.toNat - 48)) res) % u32Mod,
          con + ds.length, rest) := by
  induction ds with
  | nil =>
    intro rest res con hres _ hrest
    have hmod : res % u32Mod = res := Nat.mod_eq_of_lt hres
    cases rest with
    | nil => simp [parse_integer_aux, hmod]
    | cons c cs =>
      have hc : is_digit c = false := hrest c rfl
      simp [parse_integer_aux, hc, hmod]
  | cons d ds ih =>
    intro rest res con hres hds hrest
    have hd : is_digit d = true := hds d (by simp)
    have hlt : (res * 10 + (d.toNat - 48)) % u32Mod < u32Mod :=
      Nat.mod_lt _ (by unfold u32Mod; omega)
    simp only [List.cons_append, parse_integer_aux, hd, if_true, List.append_eq]
    rw [ih rest _ (con + 1) hlt (fun c hc => hds c (by simp [hc])) hrest]
    have hfst := foldl_digits_mod_congr ds
      ((res * 10 + (d.toNat - 48)) % u32Mod) (res * 10 + (d.toNat - 48))
      (by unfold u32Mod; omega)
    simp only [List.foldl_cons, List.length_cons, Prod.mk.injEq]
    exact ⟨hfst, by omega, trivial⟩

/-- `parse_integer` on a digit run followed by a non-digit boundary. -/
theorem parse_integer_spec (ds rest : List Char)
    (hds : ∀ c ∈ ds, is_digit c = true)
    (hrest : ∀ c, rest.head? = some c → is_digit c = false) :
    parse_integer (ds ++ rest) = (digitsVal ds % u32Mod, ds.length, rest) := by
  unfold parse_integer digitsVal
  rw [parse_integer_aux_spec ds rest 0 0 (by unfold u32Mod; omega) hds hrest]
  simp

/-- `parse_number` when the digit run is followed by `.` and then a
non-digit (or the end of input): the `.` is consumed and discarded and
the value is the wrapped integer-run accumulation. -/
theorem parse_number_dot_nodigit (ds rest : List Char)
    (hds : ∀ c ∈ ds, is_digit c = true)
    (hrest : ∀ c, rest.head? = some c → is_digit c = false) :
    parse_number (ds ++ '.' :: rest) =
      (F32.finite ((digitsVal ds % u32Mod : Nat) : ℚ), rest) := by
  have hint := parse_integer_spec ds ('.' :: rest) hds (fun c hc => by
    simp only [List.head?] at hc
    injection hc with h
    rw [← h]
    decide)
  simp only [parse_number, hint]
  cases rest with
  | nil => rfl
  | cons c cs =>
    have hc : is_digit c = false := hrest c rfl
    simp [hc]

/-- `parse_number` when the digit run is followed by a non-digit,
non-`.` boundary (or the end of input). -/
theorem parse_number_nodot (ds rest : List Char)
    (hds : ∀ c ∈ ds, is_digit c = true)
    (hrest : ∀ c, rest.head? = some c → is_digit c = false ∧ c ≠ '.') :
    parse_number (ds ++ rest) =
      (F32.finite ((digitsVal ds % u32Mod : Nat) : ℚ), rest) := by
  have hint := parse_integer_spec ds rest hds (fun c hc => (hrest c hc).1)
  simp only [parse_number, hint]
  cases rest with
  | nil => rfl
  | cons c cs =>
    have hc : c ≠ '.' := (hrest c rfl).2
    split
    · rename_i cs2 heq
      injection heq with h1 _
      exact absurd h1 hc
    · rfl

/-- `parse_number` on a digit run, a `.`, and a fractional digit run with
a non-digit boundary: both runs accumulate with `u32` wrap-around. -/
theorem parse_number_frac (ds f : List Char) (c0 : Char) (rest : List Char)
    (hds : ∀ c ∈ ds, is_digit c = true)
    (hc0 : is_digit c0 = true)
    (hf : ∀ c ∈ f, is_digit c = true)
    (hrest : ∀ c, rest.head? = some c → is_digit c = false) :
    parse_number (ds ++ ('.' :: c0 :: (f ++ rest))) =
      (F32.add (F32.finite ((digitsVal ds % u32Mod : Nat) : ℚ))
        (F32.div (F32.finite ((digitsVal (c0 :: f) % u32Mod : Nat) : ℚ))
          (F32.finite (10 ^ (c0 :: f).length))), rest) := by
  have h1 := parse_integer_spec ds ('.' :: c0 :: (f ++ rest)) hds (fun c hc => by
    simp only [List.head?] at hc
    injection hc with h
    rw [← h]
    decide)
  have h2 := parse_integer_spec (c0 :: f) rest (by
    intro c hc
    rcases List.mem_cons.mp hc with h | h
    · exact h ▸ hc0
    · exact hf c h) hrest
  simp only [List.cons_append] at h2
  simp only [parse_number, h1, hc0, if_true, h2]

/-- A digit is not whitespace. -/
theorem digit_not_ws (c : Char) (h : is_digit c = true) : isWS c = false := by
  have hp : '0' ≤ c ∧ c ≤ '9' := by simpa [is_digit] using h
  simp only [isWS, decide_eq_false_iff_not]
  rintro (rfl | rfl | rfl | rfl) <;> exact absurd hp (by decide)

/-- A digit is none of the single- or double-character dispatch
characters of `next_token`. -/
theorem digit_char_facts (c : Char) (h : is_digit c = true) :
    c ≠ '(' ∧ c ≠ ')' ∧ c ≠ '\x7b' ∧ c ≠ '\x7d' ∧ c ≠ '*' ∧ c ≠ '.' ∧
    c ≠ ',' ∧ c ≠ ';' ∧ c ≠ '+' ∧ c ≠ '-' ∧ c ≠ '/' ∧ c ≠ '=' ∧ c ≠ '!' ∧
    c ≠ '>' ∧ c ≠ '<' ∧ c ≠ '\"' := by
  have hp : '0' ≤ c ∧ c ≤ '9' := by simpa [is_digit] using h
  refine ⟨?_, ?_, ?_, ?_, ?_, ?_, ?_, ?_, ?_, ?_, ?_, ?_, ?_, ?_, ?_, ?_⟩ <;>
    (rintro rfl; exact absurd hp (by decide))

/-- `next_token_fueled` on input starting with a digit: the digit is
consumed by the dispatcher and the number is parsed from the *rest*. -/
theorem next_token_fueled_digit (fuel : Nat) (d : Char) (cs : List Char)
    (ln col : Nat) (hd : is_digit d = true) :
    next_token_fueled (fuel + 1) (d :: cs) ln col =
      (⟨TokenType.Number (parse_number cs).1, (parse_number cs).1.toString, ln, col⟩,
        (parse_number cs).2, ln, col) := by
  obtain ⟨h1, h2, h3, h4, h5, h6, h7, h8, h9, h10, h11, h12, h13, h14, h15, h16⟩ :=
    digit_char_facts d hd
  have hws : isWS d = false := digit_not_ws d hd
  simp [next_token_fueled, skip_whitespace, hws, h1, h2, h3, h4, h5, h6, h7, h8,
    h9, h10, h11, h12, h13, h14, h15, h16, hd]

/-- `next_token` on input starting with a digit. -/
theorem next_token_digit (d : Char) (cs : List Char) (ln col : Nat)
    (hd : is_digit d = true) :
    next_token (d :: cs) ln col =
      (⟨TokenType.Number (parse_number cs).1, (parse_number cs).1.toString, ln, col⟩,
        (parse_number cs).2, ln, col) := by
  unfold next_token
  simp only [List.length_cons]
  exact next_token_fueled_digit (cs.length + 1) d cs ln col hd

/-! ## Claim C3 — trailing `.`: amended theorem -/

/-- C3 (amended): when a digit run is followed by a `.` that is not
itself followed by a digit, the `.` *is* consumed (and discarded):
scanning continues right after it, so it never yields a `Dot` token.
The emitted token is a `Number` whose value is the wrapped accumulation
of the run *without its first digit* (dropped by the dispatcher). -/
theorem C3_trailing_dot_consumed (d : Char) (ds rest : List Char) (ln col : Nat)
    (hd : is_digit d = true) (hds : ∀ c ∈ ds, is_digit c = true)
    (hrest : ∀ c, rest.head? = some c → is_digit c = false) :
    next_token (d :: (ds ++ '.' :: rest)) ln col =
      (⟨TokenType.Number (F32.finite ((digitsVal ds % u32Mod : Nat) : ℚ)),
        (F32.finite ((digitsVal ds % u32Mod : Nat) : ℚ)).toString, ln, col⟩,
        rest, ln, col) := by
  rw [next_token_digit d _ ln col hd, parse_number_dot_nodigit ds rest hds hrest]

/-- C3 witness: on the input `12.` the scanner emits `Number(2)` and the
remaining input is empty — the `.` was consumed, so no `Dot` token can
follow. -/
theorem C3_trailing_dot_consumed_witness :
    next_token ('1' :: (['2'] ++ '.' :: [])) 1 1 =
      (⟨TokenType.Number (F32.finite 2), "2", 1, 1⟩, [], 1, 1) := by
  have h := C3_trailing_dot_consumed '1' ['2'] [] 1 1 (by decide) (by decide)
    (fun c hc => by simp at hc)
  exact h.trans (by decide)

/-! ## Claim C10 — wrap-around accumulation: amended theorem -/

/-- C10 (amended): `parse_integer` accumulates with
`res = res * 10 + digit` in `u32` arithmetic, i.e. modulo `2^32` under
wrap-around semantics (in a debug build the overflow would panic
instead).  The number's first digit was already consumed and discarded
by the dispatcher, so the integer part stored in the token is the
accumulation of the *remaining* digits of the run modulo `2^32`; a
fractional run is accumulated whole, modulo `2^32`. -/
theorem C10_wrap_accumulation :
    (∀ (d : Char) (ds rest : List Char) (ln col : Nat),
      is_digit d = true → (∀ c ∈ ds, is_digit c = true) →
      (∀ c, rest.head? = some c → is_digit c = false ∧ c ≠ '.') →
      next_token (d :: (ds ++ rest)) ln col =
        (⟨TokenType.Number (F32.finite ((digitsVal ds % u32Mod : Nat) : ℚ)),
          (F32.finite ((digitsVal ds % u32Mod : Nat) : ℚ)).toString, ln, col⟩,
          rest, ln, col))
    ∧ (∀ (d c0 : Char) (ds f rest : List Char) (ln col : Nat),
      is_digit d = true → (∀ c ∈ ds, is_digit c = true) →
      is_digit c0 = true → (∀ c ∈ f, is_digit c = true) →
      (∀ c, rest.head? = some c → is_digit c = false) →
      next_token (d :: (ds ++ ('.' :: c0 :: (f ++ rest)))) ln col =
        (⟨TokenType.Number
            (F32.add (F32.finite ((digitsVal ds % u32Mod : Nat) : ℚ))
              (F32.div (F32.finite ((digitsVal (c0 :: f) % u32Mod : Nat) : ℚ))
                (F32.finite (10 ^ (c0 :: f).length)))),
          (F32.add (F32.finite ((digitsVal ds % u32Mod : Nat) : ℚ))
              (F32.div (F32.finite ((digitsVal (c0 :: f) % u32Mod : Nat) : ℚ))
                (F32.finite (10 ^ (c0 :: f).length)))).toString, ln, col⟩,
          rest, ln, col)) := by
  constructor
  · intro d ds rest ln col hd hds hrest
    rw [next_token_digit d _ ln col hd, parse_number_nodot ds rest hds hrest]
  · intro d c0 ds f rest ln col hd hds hc0 hf hrest
    rw [next_token_digit d _ ln col hd, parse_number_frac ds f c0 rest hds hc0 hf hrest]

/-- C10 witness: scanning the run `99999999999` (eleven nines, value
`≥ 2^32`) stores `9999999999 % 2^32 = 1410065407` (the wrapped value of
the last ten nines), and the fractional run of `1.5` is parsed whole. -/
theorem C10_wrap_accumulation_witness :
    next_token ('9' :: (['9', '9', '9', '9', '9', '9', '9', '9', '9', '9'] ++ [])) 1 1 =
      (⟨TokenType.Number
          (F32.finite ((digitsVal ['9', '9', '9', '9', '9', '9', '9', '9', '9', '9']
            % u32Mod : Nat) : ℚ)),
        (F32.finite ((digitsVal ['9', '9', '9', '9', '9', '9', '9', '9', '9', '9']
          % u32Mod : Nat) : ℚ)).toString, 1, 1⟩, [], 1, 1)
    ∧ ((digitsVal ['9', '9', '9', '9', '9', '9', '9', '9', '9', '9'] % u32Mod : Nat) = 1410065407
        ∧ 2 ^ 32 ≤ digitsVal ['9', '9', '9', '9', '9', '9', '9', '9', '9', '9'])
    ∧ next_token ('1' :: ([] ++ ('.' :: '5' :: ([] ++ [])))) 1 1 =
      (⟨TokenType.Number
          (F32.add (F32.finite ((digitsVal [] % u32Mod : Nat) : ℚ))
            (F32.div (F32.finite ((digitsVal ['5'] % u32Mod : Nat) : ℚ))
              (F32.finite (10 ^ (['5'] : List Char).length)))),
        (F32.add (F32.finite ((digitsVal [] % u32Mod : Nat) : ℚ))
            (F32.div (F32.finite ((digitsVal ['5'] % u32Mod : Nat) : ℚ))
              (F32.finite (10 ^ (['5'] : List Char).length)))).toString, 1, 1⟩,
        [], 1, 1) := by
  refine ⟨?_, ⟨by decide, by decide⟩, ?_⟩
  · exact C10_wrap_accumulation.1 '9' ['9', '9', '9', '9', '9', '9', '9', '9', '9', '9']
      [] 1 1 (by decide) (by decide) (fun c hc => by simp at hc)
  · exact C10_wrap_accumulation.2 '1' '5' [] [] [] 1 1 (by decide) (by simp)
      (by decide) (by simp) (fun c hc => by simp at hc)

/-! ### Parser invariants -/

/-- Rust's `PartialEq` on `TokenType` only identifies equal variants
(IEEE-equal payloads for `Number`). -/
theorem peq_true {a b : TokenType} (h : TokenType.peq a b = true) :
    a = b ∨ ∃ x y, a = TokenType.Number x ∧ b = TokenType.Number y := by
  unfold TokenType.peq at h
  split at h
  · rename_i x y
    exact Or.inr ⟨x, y, rfl, rfl⟩
  · exact Or.inl (of_decide_eq_true h)

/-- A token matched against a non-error expected type is not
error-bearing. -/
theorem is_error_false_of_peq_op {tok : Token} {ty : TokenType}
    (h : TokenType.peq ty tok.token_type = true)
    (h1 : ty ≠ TokenType.Unknown)
    (h2 : ∀ s, ty ≠ TokenType.UnterminatedString s) :
    tok.is_error = false := by
  rcases peq_true h with heq | ⟨x, y, hty, htok⟩
  · unfold Token.is_error
    rw [← heq]
    split
    · exact absurd rfl h1
    · rename_i s
      exact absurd rfl (h2 s)
    · rfl
  · simp [Token.is_error, htok]

/-- What `SyntaxTree::matches` guarantees on success. -/
theorem matchesTok_some {s : PState} {l : List TokenType} {tok : Token} {s' : PState}
    (h : matchesTok s l = some (tok, s')) :
    (l.any fun ty => TokenType.peq ty tok.token_type) = true
    ∧ s.tokens = tok :: s'.tokens := by
  unfold matchesTok at h
  cases hts : s.tokens with
  | nil => rw [hts] at h; exact absurd h (by simp)
  | cons t ts =>
    rw [hts] at h
    dsimp only at h
    by_cases hc : (l.any fun ty => TokenType.peq ty t.token_type) = true
    · rw [if_pos hc] at h
      cases h
      exact ⟨hc, rfl⟩
    · rw [if_neg hc] at h
      exact absurd h (by simp)

/-- An operator token consumed by one of the parser's `matches` calls
(whose expected lists only contain operator kinds) is not
error-bearing. -/
theorem matched_op_not_error {s s' : PState} {tok : Token} {l : List TokenType}
    (hl : ∀ ty ∈ l, ty ≠ TokenType.Unknown ∧ ∀ str, ty ≠ TokenType.UnterminatedString str)
    (hm : matchesTok s l = some (tok, s')) :
    tok.is_error = false := by
  obtain ⟨hany, -⟩ := matchesTok_some hm
  simp only [List.any_eq_true] at hany
  obtain ⟨ty, htyl, hpeq⟩ := hany
  exact is_error_false_of_peq_op hpeq (hl ty htyl).1 (hl ty htyl).2

/-- The master invariant: every expression produced by any level of the
descent (at any fuel) contains no error-bearing tokens. -/
theorem parser_error_free (fuel : Nat) :
    (∀ s e s', expressionF fuel s = Except.ok (e, s') → treeErrorFree e = true)
    ∧ (∀ s e s', equalityF fuel s = Except.ok (e, s') → treeErrorFree e = true)
    ∧ (∀ e0 s e s', treeErrorFree e0 = true →
        equalityLoopF fuel e0 s = Except.ok (e, s') → treeErrorFree e = true)
    ∧ (∀ s e s', comparisionF fuel s = Except.ok (e, s') → treeErrorFree e = true)
    ∧ (∀ e0 s e s', treeErrorFree e0 = true →
        comparisionLoopF fuel e0 s = Except.ok (e, s') → treeErrorFree e = true)
    ∧ (∀ s e s', termF fuel s = Except.ok (e, s') → treeErrorFree e = true)
    ∧ (∀ e0 s e s', treeErrorFree e0 = true →
        termLoopF fuel e0 s = Except.ok (e, s') → treeErrorFree e = true)
    ∧ (∀ s e s', factorF fuel s = Except.ok (e, s') → treeErrorFree e = true)
    ∧ (∀ e0 s e s', treeErrorFree e0 = true →
        factorLoopF fuel e0 s = Except.ok (e, s') → treeErrorFree e = true)
    ∧ (∀ s e s', unaryF fuel s = Except.ok (e, s') → treeErrorFree e = true)
    ∧ (∀ s e s', primaryF fuel s = Except.ok (e, s') → treeErrorFree e = true) := by
  induction fuel with
  | zero =>
    refine ⟨?_, ?_, ?_, ?_, ?_, ?_, ?_, ?_, ?_, ?_, ?_⟩
    · intro s e s' h; exact absurd h (by simp [expressionF])
    · intro s e s' h; exact absurd h (by simp [equalityF])
    · intro e0 s e s' h0 h; exact absurd h (by simp [equalityLoopF])
    · intro s e s' h; exact absurd h (by simp [comparisionF])
    · intro e0 s e s' h0 h; exact absurd h (by simp [comparisionLoopF])
    · intro s e s' h; exact absurd h (by simp [termF])
    · intro e0 s e s' h0 h; exact absurd h (by simp [termLoopF])
    · intro s e s' h; exact absurd h (by simp [factorF])
    · intro e0 s e s' h0 h; exact absurd h (by simp [factorLoopF])
    · intro s e s' h; exact absurd h (by simp [unaryF])
    · intro s e s' h; exact absurd h (by simp [primaryF])
  | succ n ih =>
    obtain ⟨ihE, ihEq, ihEqL, ihC, ihCL, ihT, ihTL, ihF, ihFL, ihU, ihP⟩ := ih
    have hLoop :
        ∀ (levelF : Nat → PState → Except ParserError (Expr × PState))
          (loopF : Nat → Expr → PState → Except ParserError (Expr × PState))
          (l : List TokenType),
          (∀ s e s', levelF n s = Except.ok (e, s') → treeErrorFree e = true) →
          (∀ e0 s e s', treeErrorFree e0 = true →
            loopF n e0 s = Except.ok (e, s') → treeErrorFree e = true) →
          (∀ ty ∈ l, ty ≠ TokenType.Unknown ∧
            ∀ str, ty ≠ TokenType.UnterminatedString str) →
          ∀ e0 s e s', treeErrorFree e0 = true →
            (match matchesTok s l with
              | none => Except.ok (e0, s)
              | some (tok, s1) =>
                match levelF n s1 with
                | Except.error e => Except.error e
                | Except.ok (right, s2) =>
                  loopF n (Expr.Binary e0 tok right) s2) = Except.ok (e, s') →
            treeErrorFree e = true := by
      intro levelF loopF l ihLvl ihLp hl e0 s e s' h0 h
      rcases hm : matchesTok s l with _ | ⟨tok, s1⟩ <;> rw [hm] at h <;> dsimp only at h
      · cases h
        exact h0
      · have htok : tok.is_error = false := matched_op_not_error hl hm
        rcases hc : levelF n s1 with pe | ⟨right, s2⟩ <;> rw [hc] at h <;> dsimp only at h
        · exact absurd h (by simp)
        · refine ihLp _ s2 e s' ?_ h
          simp [treeErrorFree, htok, h0, ihLvl s1 right s2 hc]
    refine ⟨?_, ?_, ?_, ?_, ?_, ?_, ?_, ?_, ?_, ?_, ?_⟩
    · intro s e s' h
      exact ihEq s e s' h
    · intro s e s' h
      rw [show equalityF (n + 1) s =
        (match comparisionF n s with
          | Except.error e => Except.error e
          | Except.ok (expr, s) => equalityLoopF n expr s) from rfl] at h
      rcases hc : comparisionF n s with pe | ⟨expr, s1⟩ <;> rw [hc] at h <;> dsimp only at h
      · exact absurd h (by simp)
      · exact ihEqL expr s1 e s' (ihC s expr s1 hc) h
    · intro e0 s e s' h0 h
      exact hLoop comparisionF equalityLoopF _ ihC ihEqL
        (by
          intro ty hty
          simp only [List.mem_cons, List.not_mem_nil, or_false] at hty
          rcases hty with rfl | rfl <;>
            exact ⟨fun h => TokenType.noConfusion h,
              fun str h => TokenType.noConfusion h⟩) e0 s e s' h0 h
    · intro s e s' h
      rw [show comparisionF (n + 1) s =
        (match termF n s with
          | Except.error e => Except.error e
          | Except.ok (expr, s) => comparisionLoopF n expr s) from rfl] at h
      rcases hc : termF n s with pe | ⟨expr, s1⟩ <;> rw [hc] at h <;> dsimp only at h
      · exact absurd h (by simp)
      · exact ihCL expr s1 e s' (ihT s expr s1 hc) h
    · intro e0 s e s' h0 h
      exact hLoop termF comparisionLoopF _ ihT ihCL
        (by
          intro ty hty
          simp only [List.mem_cons, List.not_mem_nil, or_false] at hty
          rcases hty with rfl | rfl | rfl | rfl <;>
            exact ⟨fun h => TokenType.noConfusion h,
              fun str h => TokenType.noConfusion h⟩) e0 s e s' h0 h
    · intro s e s' h
      rw [show termF (n + 1) s =
        (match factorF n s with
          | Except.error e => Except.error e
          | Except.ok (expr, s) => termLoopF n expr s) from rfl] at h
      rcases hc : factorF n s with pe | ⟨expr, s1⟩ <;> rw [hc] at h <;> dsimp only at h
      · exact absurd h (by simp)
      · exact ihTL expr s1 e s' (ihF s expr s1 hc) h
    · intro e0 s e s' h0 h
      exact hLoop factorF termLoopF _ ihF ihTL
        (by
          intro ty hty
          simp only [List.mem_cons, List.not_mem_nil, or_false] at hty
          rcases hty with rfl | rfl <;>
            exact ⟨fun h => TokenType.noConfusion h,
              fun str h => TokenType.noConfusion h⟩) e0 s e s' h0 h
    · intro s e s' h
      rw [show factorF (n + 1) s =
        (match unaryF n s with
          | Except.error e => Except.error e
          | Except.ok (expr, s) => factorLoopF n expr s) from rfl] at h
      rcases hc : unaryF n s with pe | ⟨expr, s1⟩ <;> rw [hc] at h <;> dsimp only at h
      · exact absurd h (by simp)
      · exact ihFL expr s1 e s' (ihU s expr s1 hc) h
    · intro e0 s e s' h0 h
      exact hLoop unaryF factorLoopF _ ihU ihFL
        (by
          intro ty hty
          simp only [List.mem_cons, List.not_mem_nil, or_false] at hty
          rcases hty with rfl | rfl <;>
            exact ⟨fun h => TokenType.noConfusion h,
              fun str h => TokenType.noConfusion h⟩) e0 s e s' h0 h
    · intro s e s' h
      rw [show unaryF (n + 1) s =
        (match matchesTok s [TokenType.Bang, TokenType.Minus] with
          | none => primaryF n s
          | some (tok, s) =>
            match unaryF n s with
            | Except.error e => Except.error e
            | Except.ok (expr, s) => Except.ok (Expr.Unary tok expr, s)) from rfl] at h
      rcases hm : matchesTok s [TokenType.Bang, TokenType.Minus] with _ | ⟨tok, s1⟩ <;>
        rw [hm] at h <;> dsimp only at h
      · exact ihP s e s' h
      · have htok : tok.is_error = false := matched_op_not_error
          (by
            intro ty hty
            simp only [List.mem_cons, List.not_mem_nil, or_false] at hty
            rcases hty with rfl | rfl <;>
              exact ⟨fun h => TokenType.noConfusion h,
                fun str h => TokenType.noConfusion h⟩) hm
        rcases hu : unaryF n s1 with pe | ⟨expr, s2⟩ <;> rw [hu] at h <;> dsimp only at h
        · exact absurd h (by simp)
        · cases h
          simp [treeErrorFree, htok, ihU s1 expr _ hu]
    · intro s e s' h
      rw [show primaryF (n + 1) s =
        (match consumeTok s with
          | (none, _) => Except.error ⟨0, 0⟩
          | (some token, s) =>
            match token.token_type with
            | TokenType.String _ => Except.ok (Expr.Literal token, s)
            | TokenType.Number _ => Except.ok (Expr.Literal token, s)
            | TokenType.Identifier _ => Except.ok (Expr.Literal token, s)
            | TokenType.TRUE => Except.ok (Expr.Literal token, s)
            | TokenType.FALSE => Except.ok (Expr.Literal token, s)
            | TokenType.NIL => Except.ok (Expr.Literal token, s)
            | TokenType.LeftParen =>
              match expressionF n s with
              | Except.error e => Except.error e
              | Except.ok (expr, s) =>
                match expectTok s [TokenType.RightParen] with
                | Except.error e => Except.error e
                | Except.ok s => Except.ok (Expr.Grouping expr, s)
            | _ => Except.error ⟨token.line, token.character⟩) from rfl] at h
      rcases hcons : consumeTok s with ⟨o, s1⟩
      rw [hcons] at h
      cases o with
      | none => exact absurd h (by simp)
      | some token =>
        dsimp only at h
        split at h
        · rename_i hty
          cases h
          simp [treeErrorFree, Token.is_error, hty]
        · rename_i hty
          cases h
          simp [treeErrorFree, Token.is_error, hty]
        · rename_i hty
          cases h
          simp [treeErrorFree, Token.is_error, hty]
        · rename_i hty
          cases h
          simp [treeErrorFree, Token.is_error, hty]
        · rename_i hty
          cases h
          simp [treeErrorFree, Token.is_error, hty]
        · rename_i hty
          cases h
          simp [treeErrorFree, Token.is_error, hty]
        · rcases he2 : expressionF n s1 with pe | ⟨expr, s2⟩ <;> rw [he2] at h <;> dsimp only at h
          · exact absurd h (by simp)
          · rcases hex : expectTok s2 [TokenType.RightParen] with pe | s3 <;> rw [hex] at h <;> dsimp only at h
            · exact absurd h (by simp)
            · cases h
              exact ihE s1 expr s2 he2
        · exact absurd h (by simp)

/-! ## Claim C8 — parser trees contain no error-bearing tokens -/

/-- C8: if `SyntaxTree::expression` returns `Ok(tree)`, no token embedded
in the tree (literal or operator) is error-bearing; and an error-bearing
token sitting where the parser needs a tree token (the head of the
input, i.e. the next primary position) produces a `ParserError`. -/
theorem C8_no_error_tokens :
    (∀ (tokens : List Token) (e : Expr) (s' : PState),
      SyntaxTree.expression tokens = Except.ok (e, s') → treeErrorFree e = true)
    ∧ (∀ (t : Token) (ts : List Token), t.is_error = true →
      ∃ pe, SyntaxTree.expression (t :: ts) = Except.error pe) := by
  constructor
  · intro tokens e s' h
    exact (parser_error_free (parserFuel tokens)).1 ⟨tokens⟩ e s' h
  · intro t ts hte
    obtain ⟨ty, lex, ln, col⟩ := t
    obtain ⟨n, hn⟩ : ∃ n, parserFuel (⟨ty, lex, ln, col⟩ :: ts) = n + 7 :=
      ⟨8 * ts.length + 17, by unfold parserFuel; simp [List.length_cons]; omega⟩
    unfold SyntaxTree.expression
    rw [hn]
    cases ty <;> first
      | exact ⟨⟨ln, col⟩, rfl⟩
      | simp [Token.is_error] at hte

/-- C8 witness. -/
theorem C8_no_error_tokens_witness :
    treeErrorFree (Expr.Literal ⟨TokenType.Number (F32.finite 1), "1", 1, 1⟩) = true
    ∧ ∃ pe, SyntaxTree.expression [⟨TokenType.Unknown, "@", 1, 1⟩] =
        Except.error pe := by
  constructor
  · exact C8_no_error_tokens.1
      [⟨TokenType.Number (F32.finite 1), "1", 1, 1⟩, ⟨TokenType.EOF, "", 1, 1⟩]
      (Expr.Literal ⟨TokenType.Number (F32.finite 1), "1", 1, 1⟩)
      ⟨[⟨TokenType.EOF, "", 1, 1⟩]⟩ rfl
  · exact C8_no_error_tokens.2 ⟨TokenType.Unknown, "@", 1, 1⟩ [] rfl

/-! ## Claim C4 — round-trip: amended theorem -/

/-- C4 (amended): the printer's prefix output re-parses to the original
tree only for bare literal trees: if `T = Literal(t)` and re-scanning the
printed form reproduces exactly the token `t` (followed by `EOF`), then
`parse(scan(print(T))) = T`.  (Any tree containing a unary, binary or
grouping node prints in prefix form, which the infix parser rejects.) -/
theorem C4_roundtrip_literal (t e : Token)
    (he : e.token_type = TokenType.EOF)
    (hscan : get_tokens (astPrint (Expr.Literal t)) = [t, e]) :
    parseExpr (get_tokens (astPrint (Expr.Literal t))) =
      Except.ok (Expr.Literal t) := by
  rw [hscan]
  obtain ⟨ty, lex, ln, col⟩ := t
  obtain ⟨ety, elex, eln, ecol⟩ := e
  have he' : ety = TokenType.EOF := he
  subst he'
  cases ty <;> first
    | rfl
    | (have hlen : (3 : Nat) = 2 := congrArg List.length hscan
       exact absurd hlen (by decide))

/-- C4 witness: the tree `Literal(Number 0)` (token lexeme `"0"`,
line 1, column 1) survives `parse ∘ scan ∘ print`. -/
theorem C4_roundtrip_literal_witness :
    parseExpr (get_tokens (astPrint
        (Expr.Literal ⟨TokenType.Number (F32.finite 0), "0", 1, 1⟩))) =
      Except.ok (Expr.Literal ⟨TokenType.Number (F32.finite 0), "0", 1, 1⟩) :=
  C4_roundtrip_literal ⟨TokenType.Number (F32.finite 0), "0", 1, 1⟩
    ⟨TokenType.EOF, "", 1, 1⟩ rfl (by decide)

/-! ## Claim C6 — `==` / `!=`: amended theorem -/

/-- C6 (amended): `==`/`!=` on evaluated operands always returns `Ok` of
a `Boolean` (never a runtime error), computed by the value equality
`valueEq`; different variants always compare unequal; and on the same
variant `valueEq` is structural equality *except* for `Number(NaN)`,
which compares unequal to everything, including itself. -/
theorem C6_equality_total :
    (∀ (e1 e2 : Expr) (op : Token) (v1 v2 : Value),
      eval e1 = EvalRes.ok v1 → eval e2 = EvalRes.ok v2 →
      (op.token_type = TokenType.EqualEqual →
        eval (Expr.Binary e1 op e2) = EvalRes.ok (Value.Boolean (valueEq v1 v2)))
      ∧ (op.token_type = TokenType.BangEqual →
        eval (Expr.Binary e1 op e2) = EvalRes.ok (Value.Boolean (! valueEq v1 v2))))
    ∧ (∀ v1 v2 : Value, sameVariant v1 v2 = false → valueEq v1 v2 = false)
    ∧ (∀ v1 v2 : Value, v1 ≠ Value.Number F32.nan →
        (valueEq v1 v2 = true ↔ v1 = v2)) := by
  refine ⟨?_, ?_, ?_⟩
  · intro e1 e2 op v1 v2 h1 h2
    constructor <;> intro hop <;>
      (unfold eval; rw [h1, h2]; unfold binaryOp; rw [hop])
  · intro v1 v2 h
    cases v1 <;> cases v2 <;> simp_all [sameVariant, valueEq]
  · intro v1 v2 hne
    cases v1 with
    | Number a =>
      cases v2 with
      | Number b => cases a <;> cases b <;> simp_all [valueEq, F32.ieeeEq]
      | String s => simp [valueEq]
      | Boolean b => simp [valueEq]
      | Nil => simp [valueEq]
    | String s => cases v2 <;> simp [valueEq]
    | Boolean b => cases v2 <;> simp [valueEq]
    | Nil => cases v2 <;> simp [valueEq]

/-- C6 witness: `nil == nil` evaluates to `Boolean(true)` via the
theorem; a `Number`/`Nil` pair compares unequal; `Nil` equality is
structural. -/
theorem C6_equality_total_witness :
    eval (Expr.Binary (Expr.Literal ⟨TokenType.NIL, "nil", 1, 1⟩)
        ⟨TokenType.EqualEqual, "==", 1, 1⟩
        (Expr.Literal ⟨TokenType.NIL, "nil", 1, 1⟩)) =
      EvalRes.ok (Value.Boolean true)
    ∧ valueEq (Value.Number (F32.finite 0)) Value.Nil = false
    ∧ (valueEq Value.Nil Value.Nil = true ↔ (Value.Nil : Value) = Value.Nil) := by
  refine ⟨?_, ?_, ?_⟩
  · exact ((C6_equality_total.1 (Expr.Literal ⟨TokenType.NIL, "nil", 1, 1⟩)
      (Expr.Literal ⟨TokenType.NIL, "nil", 1, 1⟩)
      ⟨TokenType.EqualEqual, "==", 1, 1⟩ Value.Nil Value.Nil rfl rfl).1 rfl).trans
      (by decide)
  · exact C6_equality_total.2.1 (Value.Number (F32.finite 0)) Value.Nil (by decide)
  · exact C6_equality_total.2.2 Value.Nil Value.Nil (by decide)

/-! ### Scanning: reconstruction lemmas -/

/-- A run of whitespace characters is a skippable run. -/
theorem Skipped.of_ws : ∀ {w : List Char}, (∀ c ∈ w, isWS c = true) → Skipped w := by
  intro w
  induction w with
  | nil => intro _; exact Skipped.nil
  | cons c l ih =>
    intro h
    exact Skipped.ws (h c (by simp)) (ih fun x hx => h x (by simp [hx]))

/-- Skippable runs are closed under concatenation. -/
theorem Skipped.append : ∀ {w1 w2 : List Char}, Skipped w1 → Skipped w2 →
    Skipped (w1 ++ w2) := by
  intro w1 w2 h1 h2
  induction h1 with
  | nil => simpa
  | ws hc _ ih => exact Skipped.ws hc ih
  | comment hbody _ ih =>
    simpa [List.append_assoc] using Skipped.comment hbody ih

/-- `skip_whitespace` consumes a whitespace prefix. -/
theorem skip_whitespace_spec : ∀ (cs : List Char) (ln col : Nat),
    ∃ w, (∀ c ∈ w, isWS c = true) ∧ cs = w ++ (skip_whitespace cs ln col).1 := by
  intro cs
  induction cs with
  | nil => intro ln col; exact ⟨[], by simp, by simp [skip_whitespace]⟩
  | cons c rest ih =>
    intro ln col
    by_cases hws : isWS c = true
    · obtain ⟨w, hw, heq⟩ :=
        ih (if c = '\n' then ln + 1 else ln) (if c = '\n' then 1 else col)
      refine ⟨c :: w, ?_, ?_⟩
      · intro x hx
        rcases List.mem_cons.mp hx with rfl | hx
        · exact hws
        · exact hw x hx
      · simp only [skip_whitespace, hws, if_true, List.cons_append]
        exact congrArg (c :: ·) heq
    · refine ⟨[], by simp, ?_⟩
      simp [skip_whitespace, hws]

/-- `skip_comment` consumes a newline-free prefix. -/
theorem skip_comment_spec : ∀ cs : List Char,
    ∃ body, (∀ c ∈ body, c ≠ '\n') ∧ cs = body ++ skip_comment cs := by
  intro cs
  induction cs with
  | nil => exact ⟨[], by simp, by simp [skip_comment]⟩
  | cons c rest ih =>
    by_cases hn : c = '\n'
    · refine ⟨[], by simp, ?_⟩
      simp [skip_comment, hn]
    · obtain ⟨body, hb, heq⟩ := ih
      refine ⟨c :: body, ?_, ?_⟩
      · intro x hx
        rcases List.mem_cons.mp hx with rfl | hx
        · exact hn
        · exact hb x hx
      · simp only [skip_comment, hn, if_false, List.cons_append]
        exact congrArg (c :: ·) heq

/-- `match_next` on success: the expected character was the head. -/
theorem match_next_true {expected : Char} {cs : List Char}
    (h : (match_next expected cs).1 = true) :
    cs = expected :: (match_next expected cs).2 := by
  cases cs with
  | nil => exact absurd h (by simp [match_next])
  | cons c rest =>
    by_cases hc : c = expected
    · subst hc; simp [match_next]
    · exact absurd h (by simp [match_next, hc])

/-- `match_next` on failure: nothing is consumed. -/
theorem match_next_false {expected : Char} {cs : List Char}
    (h : (match_next expected cs).1 = false) :
    (match_next expected cs).2 = cs := by
  cases cs with
  | nil => rfl
  | cons c rest =>
    by_cases hc : c = expected
    · exact absurd h (by simp [match_next, hc])
    · simp [match_next, hc]

/-- `parse_string_aux` either consumed exactly the lexeme extension, or
it stopped at a newline (recorded in the lexeme of an
`UnterminatedString` token but not consumed). -/
theorem parse_string_aux_spec (ln col : Nat) : ∀ (cs : List Char) (lit lexeme : String),
    (∃ body, (parse_string_aux ln col cs lit lexeme).1.lexeme.data = lexeme.data ++ body
      ∧ cs = body ++ (parse_string_aux ln col cs lit lexeme).2)
    ∨ ('\n' ∈ (parse_string_aux ln col cs lit lexeme).1.lexeme.data
        ∧ ∃ s, (parse_string_aux ln col cs lit lexeme).1.token_type =
            TokenType.UnterminatedString s) := by
  intro cs
  induction cs with
  | nil =>
    intro lit lexeme
    exact Or.inl ⟨[], by simp [parse_string_aux], by simp [parse_string_aux]⟩
  | cons c rest ih =>
    intro lit lexeme
    by_cases hn : c = '\n'
    · right
      subst hn
      refine ⟨?_, lit, ?_⟩
      · simp [parse_string_aux, String.push]
      · simp [parse_string_aux]
    · by_cases hq : c = '\"'
      · left
        subst hq
        exact ⟨['\"'], by simp [parse_string_aux, String.push], by simp [parse_string_aux]⟩
      · rcases ih (lit.push c) (lexeme.push c) with ⟨body, hlex, hcs⟩ | hbad
        · left
          refine ⟨c :: body, ?_, ?_⟩
          · simp only [parse_string_aux, hn, hq, if_false]
            rw [hlex]
            simp [String.push]
          · simp only [parse_string_aux, hn, hq, if_false, List.cons_append]
            exact congrArg (c :: ·) hcs
        · right
          simp only [parse_string_aux, hn, hq, if_false]
          exact hbad

/-- Keywords returned by `check_keyword` are in the excluded family of
`goodTok` (their lexemes drop the identifier's first character). -/
theorem check_keyword_not_good {s : Str} {k : TokenType} (lex : String) (ln col : Nat)
    (h : TokenType.check_keyword s = some k) :
    goodTok ⟨k, lex, ln, col⟩ = false := by
  unfold TokenType.check_keyword at h
  by_cases h0 : s = "and"
  · rw [if_pos h0] at h
    injection h with h'
    subst h'
    rfl
  · rw [if_neg h0] at h
    by_cases h1 : s = "class"
    · rw [if_pos h1] at h
      injection h with h'
      subst h'
      rfl
    · rw [if_neg h1] at h
      by_cases h2 : s = "else"
      · rw [if_pos h2] at h
        injection h with h'
        subst h'
        rfl
      · rw [if_neg h2] at h
        by_cases h3 : s = "false"
        · rw [if_pos h3] at h
          injection h with h'
          subst h'
          rfl
        · rw [if_neg h3] at h
          by_cases h4 : s = "for"
          · rw [if_pos h4] at h
            injection h with h'
            subst h'
            rfl
          · rw [if_neg h4] at h
            by_cases h5 : s = "fun"
            · rw [if_pos h5] at h
              injection h with h'
              subst h'
              rfl
            · rw [if_neg h5] at h
              by_cases h6 : s = "if"
              · rw [if_pos h6] at h
                injection h with h'
                subst h'
                rfl
              · rw [if_neg h6] at h
                by_cases h7 : s = "nil"
                · rw [if_pos h7] at h
                  injection h with h'
                  subst h'
                  rfl
                · rw [if_neg h7] at h
                  by_cases h8 : s = "or"
                  · rw [if_pos h8] at h
                    injection h with h'
                    subst h'
                    rfl
                  · rw [if_neg h8] at h
                    by_cases h9 : s = "print"
                    · rw [if_pos h9] at h
                      injection h with h'
                      subst h'
                      rfl
                    · rw [if_neg h9] at h
                      by_cases h10 : s = "return"
                      · rw [if_pos h10] at h
                        injection h with h'
                        subst h'
                        rfl
                      · rw [if_neg h10] at h
                        by_cases h11 : s = "super"
                        · rw [if_pos h11] at h
                          injection h with h'
                          subst h'
                          rfl
                        · rw [if_neg h11] at h
                          by_cases h12 : s = "this"
                          · rw [if_pos h12] at h
                            injection h with h'
                            subst h'
                            rfl
                          · rw [if_neg h12] at h
                            by_cases h13 : s = "true"
                            · rw [if_pos h13] at h
                              injection h with h'
                              subst h'
                              rfl
                            · rw [if_neg h13] at h
                              by_cases h14 : s = "var"
                              · rw [if_pos h14] at h
                                injection h with h'
                                subst h'
                                rfl
                              · rw [if_neg h14] at h
                                by_cases h15 : s = "while"
                                · rw [if_pos h15] at h
                                  injection h with h'
                                  subst h'
                                  rfl
                                · rw [if_neg h15] at h
                                  exact Option.noConfusion h

end Lox

namespace Lox

/-- A type produced by the string scanner. -/
theorem parse_string_aux_type (ln col : Nat) : ∀ (cs : List Char) (lit lexeme : String),
    (∃ s, (parse_string_aux ln col cs lit lexeme).1.token_type = TokenType.String s)
    ∨ (∃ s, (parse_string_aux ln col cs lit lexeme).1.token_type =
        TokenType.UnterminatedString s) := by
  intro cs
  induction cs with
  | nil => intro lit lexeme; exact Or.inr ⟨lit, rfl⟩
  | cons c rest ih =>
    intro lit lexeme
    by_cases hn : c = '\n'
    · subst hn; exact Or.inr ⟨lit, by simp [parse_string_aux]⟩
    · by_cases hq : c = '\"'
      · subst hq; exact Or.inl ⟨lit, by simp [parse_string_aux, hn]⟩
      · simpa only [parse_string_aux, hn, hq, if_false] using ih (lit.push c) (lexeme.push c)

/-- The per-token step: under `goodTok`, `next_token` consumes a skipped
run followed by exactly the token's lexeme. -/
theorem next_token_fueled_spec : ∀ (fuel : Nat) (cs : List Char) (ln col : Nat)
    (t : Token) (cs' : List Char) (ln' col' : Nat),
    cs.length < fuel →
    next_token_fueled fuel cs ln col = (t, cs', ln', col') →
    goodTok t = true →
    (∃ w, Skipped w ∧ cs = w ++ t.lexeme.data ++ cs')
    ∧ (t.token_type = TokenType.EOF → cs' = [])
    ∧ (t.token_type ≠ TokenType.EOF → cs'.length < cs.length) := by
  intro fuel
  induction fuel with
  | zero =>
    intro cs ln col t cs' ln' col' hlt
    exact absurd hlt (Nat.not_lt_zero _)
  | succ n ih =>
    intro cs ln col t cs' ln' col' hlt hres hgood
    obtain ⟨w0, hw0, hcs0⟩ := skip_whitespace_spec cs ln col
    have hskip0 : Skipped w0 := Skipped.of_ws hw0
    rcases hsw : skip_whitespace cs ln col with ⟨cs1, lc⟩
    rcases lc with ⟨ln1, col1⟩
    rw [hsw] at hcs0
    simp only [next_token_fueled, hsw] at hres
    cases cs1 with
    | nil =>
      simp only [Prod.mk.injEq] at hres
      obtain ⟨ht, hc, -, -⟩ := hres
      subst ht; subst hc
      refine ⟨⟨w0, hskip0, by simpa using hcs0⟩, fun _ => rfl, fun hne => absurd rfl hne⟩
    | cons ch rest =>
      have hlen1 : rest.length < cs.length := by
        have := congrArg List.length hcs0
        simp [List.length_append] at this
        omega
      have hcs0b : cs = w0 ++ ch :: rest := hcs0
      have hlen1 : rest.length < cs.length := by
        have := congrArg List.length hcs0b
        simp [List.length_append] at this
        omega
      clear hcs0
      have hcs0 := hcs0b
      clear hcs0b
      dsimp only at hres
      by_cases h1 : ch = '('
      · rw [if_pos h1] at hres
        subst h1
        simp only [Prod.mk.injEq] at hres
        obtain ⟨ht, hc, -, -⟩ := hres
        subst ht
        subst hc
        refine ⟨⟨w0, hskip0, ?_⟩, fun habs => TokenType.noConfusion habs, fun _ => hlen1⟩
        rw [hcs0]
        simp [List.append_assoc]
      · rw [if_neg h1] at hres
        by_cases h2 : ch = ')'
        · rw [if_pos h2] at hres
          subst h2
          simp only [Prod.mk.injEq] at hres
          obtain ⟨ht, hc, -, -⟩ := hres
          subst ht
          subst hc
          refine ⟨⟨w0, hskip0, ?_⟩, fun habs => TokenType.noConfusion habs, fun _ => hlen1⟩
          rw [hcs0]
          simp [List.append_assoc]
        · rw [if_neg h2] at hres
          by_cases h3 : ch = '\x7b'
          · rw [if_pos h3] at hres
            subst h3
            simp only [Prod.mk.injEq] at hres
            obtain ⟨ht, hc, -, -⟩ := hres
            subst ht
            subst hc
            refine ⟨⟨w0, hskip0, ?_⟩, fun habs => TokenType.noConfusion habs, fun _ => hlen1⟩
            rw [hcs0]
            simp [List.append_assoc]
          · rw [if_neg h3] at hres
            by_cases h4 : ch = '\x7d'
            · rw [if_pos h4] at hres
              subst h4
              simp only [Prod.mk.injEq] at hres
              obtain ⟨ht, hc, -, -⟩ := hres
              subst ht
              subst hc
              refine ⟨⟨w0, hskip0, ?_⟩, fun habs => TokenType.noConfusion habs, fun _ => hlen1⟩
              rw [hcs0]
              simp [List.append_assoc]
            · rw [if_neg h4] at hres
              by_cases h5 : ch = '*'
              · rw [if_pos h5] at hres
                subst h5
                simp only [Prod.mk.injEq] at hres
                obtain ⟨ht, hc, -, -⟩ := hres
                subst ht
                subst hc
                refine ⟨⟨w0, hskip0, ?_⟩, fun habs => TokenType.noConfusion habs, fun _ => hlen1⟩
                rw [hcs0]
                simp [List.append_assoc]
              · rw [if_neg h5] at hres
                by_cases h6 : ch = '.'
                · rw [if_pos h6] at hres
                  subst h6
                  simp only [Prod.mk.injEq] at hres
                  obtain ⟨ht, hc, -, -⟩ := hres
                  subst ht
                  subst hc
                  refine ⟨⟨w0, hskip0, ?_⟩, fun habs => TokenType.noConfusion habs, fun _ => hlen1⟩
                  rw [hcs0]
                  simp [List.append_assoc]
                · rw [if_neg h6] at hres
                  by_cases h7 : ch = ','
                  · rw [if_pos h7] at hres
                    subst h7
                    simp only [Prod.mk.injEq] at hres
                    obtain ⟨ht, hc, -, -⟩ := hres
                    subst ht
                    subst hc
                    refine ⟨⟨w0, hskip0, ?_⟩, fun habs => TokenType.noConfusion habs, fun _ => hlen1⟩
                    rw [hcs0]
                    simp [List.append_assoc]
                  · rw [if_neg h7] at hres
                    by_cases h8 : ch = ';'
                    · rw [if_pos h8] at hres
                      subst h8
                      simp only [Prod.mk.injEq] at hres
                      obtain ⟨ht, hc, -, -⟩ := hres
                      subst ht
                      subst hc
                      refine ⟨⟨w0, hskip0, ?_⟩, fun habs => TokenType.noConfusion habs, fun _ => hlen1⟩
                      rw [hcs0]
                      simp [List.append_assoc]
                    · rw [if_neg h8] at hres
                      by_cases h9 : ch = '+'
                      · rw [if_pos h9] at hres
                        subst h9
                        simp only [Prod.mk.injEq] at hres
                        obtain ⟨ht, hc, -, -⟩ := hres
                        subst ht
                        subst hc
                        refine ⟨⟨w0, hskip0, ?_⟩, fun habs => TokenType.noConfusion habs, fun _ => hlen1⟩
                        rw [hcs0]
                        simp [List.append_assoc]
                      · rw [if_neg h9] at hres
                        by_cases h10 : ch = '-'
                        · rw [if_pos h10] at hres
                          subst h10
                          simp only [Prod.mk.injEq] at hres
                          obtain ⟨ht, hc, -, -⟩ := hres
                          subst ht
                          subst hc
                          refine ⟨⟨w0, hskip0, ?_⟩, fun habs => TokenType.noConfusion habs, fun _ => hlen1⟩
                          rw [hcs0]
                          simp [List.append_assoc]
                        · rw [if_neg h10] at hres
                          by_cases h11 : ch = '/'
                          · rw [if_pos h11] at hres
                            by_cases h11b : rest.head? = some '/'
                            · rw [if_pos h11b] at hres
                              subst h11
                              cases rest with
                              | nil => exact absurd h11b (by simp)
                              | cons c2 rest2 =>
                                have hc2 : c2 = '/' := by simpa using h11b
                                subst hc2
                                have hsc : skip_comment ('/' :: rest2) = skip_comment rest2 := by
                                  simp [skip_comment]
                                rw [hsc] at hres
                                obtain ⟨body2, hb2, hdec2⟩ := skip_comment_spec rest2
                                have hsclen : (skip_comment rest2).length ≤ rest2.length := by
                                  conv_rhs => rw [hdec2]
                                  simp
                                have hcslen : cs.length = w0.length + rest2.length + 2 := by
                                  rw [hcs0]
                                  simp [List.length_append]
                                  omega
                                obtain ⟨⟨w', hskip', heq'⟩, hEOFp, hlenp⟩ :=
                                  ih (skip_comment rest2) ln1 col1 t cs' ln' col' (by omega) hres hgood
                                refine ⟨⟨w0 ++ ('/' :: '/' :: body2 ++ w'),
                                  Skipped.append hskip0 (Skipped.comment hb2 hskip'), ?_⟩,
                                  hEOFp, fun hne => ?_⟩
                                · rw [hcs0]
                                  rw [heq'] at hdec2
                                  conv_lhs => rw [hdec2]
                                  simp [List.append_assoc]
                                · have := hlenp hne
                                  omega
                            · rw [if_neg h11b] at hres
                              subst h11
                              simp only [Prod.mk.injEq] at hres
                              obtain ⟨ht, hc, -, -⟩ := hres
                              subst ht
                              subst hc
                              refine ⟨⟨w0, hskip0, ?_⟩, fun habs => TokenType.noConfusion habs, fun _ => hlen1⟩
                              rw [hcs0]
                              simp [List.append_assoc]
                          · rw [if_neg h11] at hres
                            by_cases h12 : ch = '='
                            · rw [if_pos h12] at hres
                              by_cases hmn : (match_next '=' rest).1 = true
                              · rw [if_pos hmn] at hres
                                subst h12
                                simp only [Prod.mk.injEq] at hres
                                obtain ⟨ht, hc, -, -⟩ := hres
                                subst ht
                                subst hc
                                have hr := match_next_true hmn
                                have hrlen := congrArg List.length hr
                                simp only [List.length_cons] at hrlen
                                refine ⟨⟨w0, hskip0, ?_⟩, fun habs => TokenType.noConfusion habs, fun _ => by omega⟩
                                rw [hcs0]
                                conv_lhs => rw [hr]
                                simp [List.append_assoc]
                              · rw [if_neg hmn] at hres
                                subst h12
                                simp only [Prod.mk.injEq] at hres
                                obtain ⟨ht, hc, -, -⟩ := hres
                                subst ht
                                subst hc
                                have hmf := match_next_false (by simpa using hmn)
                                rw [hmf]
                                refine ⟨⟨w0, hskip0, ?_⟩, fun habs => TokenType.noConfusion habs, fun _ => hlen1⟩
                                rw [hcs0]
                                simp [List.append_assoc]
                            · rw [if_neg h12] at hres
                              by_cases h13 : ch = '!'
                              · rw [if_pos h13] at hres
                                by_cases hmn : (match_next '=' rest).1 = true
                                · rw [if_pos hmn] at hres
                                  subst h13
                                  simp only [Prod.mk.injEq] at hres
                                  obtain ⟨ht, hc, -, -⟩ := hres
                                  subst ht
                                  subst hc
                                  have hr := match_next_true hmn
                                  have hrlen := congrArg List.length hr
                                  simp only [List.length_cons] at hrlen
                                  refine ⟨⟨w0, hskip0, ?_⟩, fun habs => TokenType.noConfusion habs, fun _ => by omega⟩
                                  rw [hcs0]
                                  conv_lhs => rw [hr]
                                  simp [List.append_assoc]
                                · rw [if_neg hmn] at hres
                                  subst h13
                                  simp only [Prod.mk.injEq] at hres
                                  obtain ⟨ht, hc, -, -⟩ := hres
                                  subst ht
                                  subst hc
                                  have hmf := match_next_false (by simpa using hmn)
                                  rw [hmf]
                                  refine ⟨⟨w0, hskip0, ?_⟩, fun habs => TokenType.noConfusion habs, fun _ => hlen1⟩
                                  rw [hcs0]
                                  simp [List.append_assoc]
                              · rw [if_neg h13] at hres
                                by_cases h14 : ch = '>'
                                · rw [if_pos h14] at hres
                                  by_cases hmn : (match_next '=' rest).1 = true
                                  · rw [if_pos hmn] at hres
                                    subst h14
                                    simp only [Prod.mk.injEq] at hres
                                    obtain ⟨ht, hc, -, -⟩ := hres
                                    subst ht
                                    subst hc
                                    have hr := match_next_true hmn
                                    have hrlen := congrArg List.length hr
                                    simp only [List.length_cons] at hrlen
                                    refine ⟨⟨w0, hskip0, ?_⟩, fun habs => TokenType.noConfusion habs, fun _ => by omega⟩
                                    rw [hcs0]
                                    conv_lhs => rw [hr]
                                    simp [List.append_assoc]
                                  · rw [if_neg hmn] at hres
                                    subst h14
                                    simp only [Prod.mk.injEq] at hres
                                    obtain ⟨ht, hc, -, -⟩ := hres
                                    subst ht
                                    subst hc
                                    have hmf := match_next_false (by simpa using hmn)
                                    rw [hmf]
                                    refine ⟨⟨w0, hskip0, ?_⟩, fun habs => TokenType.noConfusion habs, fun _ => hlen1⟩
                                    rw [hcs0]
                                    simp [List.append_assoc]
                                · rw [if_neg h14] at hres
                                  by_cases h15 : ch = '<'
                                  · rw [if_pos h15] at hres
                                    by_cases hmn : (match_next '=' rest).1 = true
                                    · rw [if_pos hmn] at hres
                                      subst h15
                                      simp only [Prod.mk.injEq] at hres
                                      obtain ⟨ht, hc, -, -⟩ := hres
                                      subst ht
                                      subst hc
                                      have hr := match_next_true hmn
                                      have hrlen := congrArg List.length hr
                                      simp only [List.length_cons] at hrlen
                                      refine ⟨⟨w0, hskip0, ?_⟩, fun habs => TokenType.noConfusion habs, fun _ => by omega⟩
                                      rw [hcs0]
                                      conv_lhs => rw [hr]
                                      simp [List.append_assoc]
                                    · rw [if_neg hmn] at hres
                                      subst h15
                                      simp only [Prod.mk.injEq] at hres
                                      obtain ⟨ht, hc, -, -⟩ := hres
                                      subst ht
                                      subst hc
                                      have hmf := match_next_false (by simpa using hmn)
                                      rw [hmf]
                                      refine ⟨⟨w0, hskip0, ?_⟩, fun habs => TokenType.noConfusion habs, fun _ => hlen1⟩
                                      rw [hcs0]
                                      simp [List.append_assoc]
                                  · rw [if_neg h15] at hres
                                    by_cases h16 : ch = '\"'
                                    · rw [if_pos h16] at hres
                                      subst h16
                                      simp only [Prod.mk.injEq] at hres
                                      obtain ⟨ht, hc, -, -⟩ := hres
                                      subst ht
                                      subst hc
                                      have hpst : parse_string_token rest ln1 col1 =
                                          parse_string_aux ln1 col1 rest "" "\"" := rfl
                                      rw [hpst]
                                      rw [hpst] at hgood
                                      have htype := parse_string_aux_type ln1 col1 rest "" "\""
                                      rcases parse_string_aux_spec ln1 col1 rest "" "\"" with
                                        ⟨body, hlex, hcons⟩ | ⟨hmem, s, hty⟩
                                      · have hconslen := congrArg List.length hcons
                                        simp only [List.length_append] at hconslen
                                        refine ⟨⟨w0, hskip0, ?_⟩, fun habs => ?_, fun _ => by omega⟩
                                        · rw [hcs0, hlex]
                                          conv_lhs => rw [hcons]
                                          simp
                                        · rcases htype with ⟨s2, hS⟩ | ⟨s2, hU⟩
                                          · rw [hS] at habs
                                            exact TokenType.noConfusion habs
                                          · rw [hU] at habs
                                            exact TokenType.noConfusion habs
                                      · simp only [goodTok, hty] at hgood
                                        rw [decide_eq_true_eq] at hgood
                                        exact absurd hmem hgood
                                    · rw [if_neg h16] at hres
                                      by_cases h17 : is_digit ch = true
                                      · rw [if_pos h17] at hres
                                        simp only [Prod.mk.injEq] at hres
                                        obtain ⟨ht, -, -, -⟩ := hres
                                        subst ht
                                        simp [goodTok] at hgood
                                      · rw [if_neg h17] at hres
                                        by_cases h18 : is_identifier ch = true
                                        · rw [if_pos h18] at hres
                                          rcases hk : TokenType.check_keyword (parse_identifier rest).1 with _ | kw <;>
                                              rw [hk] at hres <;> dsimp only at hres <;>
                                              simp only [Prod.mk.injEq] at hres
                                          · obtain ⟨ht, -, -, -⟩ := hres
                                            subst ht
                                            simp [goodTok] at hgood
                                          · obtain ⟨ht, -, -, -⟩ := hres
                                            subst ht
                                            simp [check_keyword_not_good _ _ _ hk] at hgood
                                        · rw [if_neg h18] at hres
                                          simp only [Prod.mk.injEq] at hres
                                          obtain ⟨ht, hc, -, -⟩ := hres
                                          subst ht
                                          subst hc
                                          refine ⟨⟨w0, hskip0, ?_⟩, fun habs => TokenType.noConfusion habs, fun _ => hlen1⟩
                                          rw [hcs0]
                                          simp [List.append_assoc]

end Lox

namespace Lox

/-- Token-list reconstruction over the scan loop. -/
theorem get_tokens_covers : ∀ (fuel : Nat) (cs : List Char) (ln col : Nat),
    cs.length < fuel →
    (∀ t ∈ get_tokens_fueled fuel cs ln col, goodTok t = true) →
    Covers cs (get_tokens_fueled fuel cs ln col) := by
  intro fuel
  induction fuel with
  | zero => intro cs ln col hlt _; exact absurd hlt (Nat.not_lt_zero _)
  | succ n ih =>
    intro cs ln col hlt hgood
    rcases hr : next_token cs ln col with ⟨t, cs', lc'⟩
    rcases lc' with ⟨ln', col'⟩
    have hr' : next_token_fueled (cs.length + 1) cs ln col = (t, cs', ln', col') := hr
    simp only [get_tokens_fueled, hr] at hgood ⊢
    by_cases heof : TokenType.peq t.token_type TokenType.EOF = true
    · rw [if_pos heof] at hgood ⊢
      have htt : t.token_type = TokenType.EOF := by
        rcases peq_true heof with h | ⟨x, y, hx, hy⟩
        · exact h
        · exact TokenType.noConfusion hy
      have hgt : goodTok t = true := hgood t (by simp)
      obtain ⟨⟨w, hskip, heq⟩, hEOFimp, -⟩ :=
        next_token_fueled_spec (cs.length + 1) cs ln col t cs' ln' col'
          (by omega) hr' hgt
      have hcs' : cs' = [] := hEOFimp htt
      subst hcs'
      rw [heq]
      exact Covers.cons hskip Covers.nil
    · rw [if_neg heof] at hgood ⊢
      have htne : t.token_type ≠ TokenType.EOF := by
        intro h
        apply heof
        rw [h]
        decide
      have hgt : goodTok t = true := hgood t (by simp)
      obtain ⟨⟨w, hskip, heq⟩, -, hlt'⟩ :=
        next_token_fueled_spec (cs.length + 1) cs ln col t cs' ln' col'
          (by omega) hr' hgt
      have hshrink := hlt' htne
      have hrec := ih cs' ln' col' (by omega) (fun x hx => hgood x (by simp [hx]))
      rw [heq]
      exact Covers.cons hskip hrec

/-- C1 (amended): reconstruction holds for every scan whose tokens all
keep their consumed characters. -/
theorem C1_reconstruction_amended (src : String)
    (h : ∀ t ∈ get_tokens src, goodTok t = true) :
    Covers src.data (get_tokens src) := by
  unfold get_tokens at h ⊢
  exact get_tokens_covers (src.data.length + 1) src.data 1 1 (by omega) h

/-- C1 witness. -/
theorem C1_reconstruction_amended_witness :
    (∀ t ∈ get_tokens "( \"a\" ) // c", goodTok t = true)
    ∧ Covers ("( \"a\" ) // c".data) (get_tokens "( \"a\" ) // c") :=
  ⟨by decide, C1_reconstruction_amended _ (by decide)⟩

end Lox
